import Mathlib

/-!
# TicTacToe (src/src/main.cpp): embedding of the game state machine

The class `TicTacToe` is embedded as a pure state-passing model.

* A call of `make_move` is executed atomically (the whole body runs under
  `board_mutex`).  The condition-variable wait of line 43 is modelled by the
  outcome `blocked`: the wait predicate is false in the state at hand, the
  caller stays suspended and nothing is read or written.  A suspended caller
  that is woken later runs the rest of the body in the state it is woken in,
  which is the same as a fresh call in that state; a game is therefore a list
  of calls executed one after the other (`run`).
* Indexing `board[row][col]` with an index outside `0..2` has no defined
  behaviour in C++ and is modelled by the outcome `undefined`.
* A C++ `char` is a Lean `Char`; the code only copies and compares characters.
* The text sent to `std::cout` is returned as a `String`.  `make_move_traced`
  is the same body executed statement by statement with a trace of its
  events (write, render, win check, draw check); it is shown to return what
  `make_move` returns.

`Player::play_sequential` is embedded as `play_sequential`, a scan of the nine
cells that stops at the first accepted call.  `Player::play_random` is
embedded as `play_random`, its `while (true)` loop being run for a bounded
number of iterations over a stream of values of `std::rand()`; a run that has
not left the loop within the bound has the status `unfinished`.
-/

namespace TicTacToe

/-- The 3×3 grid `std::array<std::array<char, 3>, 3> board`. -/
abbrev Board := Fin 3 → Fin 3 → Char

/-- The data members of `class TicTacToe` (the mutex and the condition
variable carry no data). -/
structure State where
  board : Board
  current_player : Char
  game_over : Bool
  winner : Char

/-- The constructor `TicTacToe()`: turn marker `'X'`, not over, winner `' '`,
every cell filled with `' '`. -/
def init : State :=
  { board := fun _ _ => ' ', current_player := 'X', game_over := false, winner := ' ' }

/-- The text `display_board` sends to `std::cout` for one row `i`: the three
cells, with `" | "` after the cells `j < 2`, then a newline, then the rule
`"---------\n"` when `i < 2`. -/
def display_row (board : Board) (i : Fin 3) : String :=
  ((List.finRange 3).foldl
      (fun acc j => (acc.push (board i j)) ++ (if j.val < 2 then " | " else "")) "")
    ++ "\n" ++ (if i.val < 2 then "---------\n" else "")

/-- The function `display_board()`: header, the three rows, final `std::endl`. -/
def display_board (board : Board) : String :=
  ((List.finRange 3).foldl (fun acc i => acc ++ display_row board i) "\nTabuleiro atual:\n")
    ++ "\n"

/-- The function `check_win(player)`: the loop over `i = 0,1,2` tests row `i`
and then column `i`, returning `true` at the first hit; then the two
diagonals are tested. -/
def check_win (board : Board) (player : Char) : Bool :=
  if (List.finRange 3).any (fun i =>
        (board i 0 == player && board i 1 == player && board i 2 == player) ||
        (board 0 i == player && board 1 i == player && board 2 i == player)) then true
  else if board 0 0 == player && board 1 1 == player && board 2 2 == player then true
  else if board 0 2 == player && board 1 1 == player && board 2 0 == player then true
  else false

/-- The function `check_draw()`: `false` as soon as a cell equal to `' '` is
met, `true` when the scan of all rows and cells ends. -/
def check_draw (board : Board) : Bool :=
  (List.finRange 3).all (fun i => (List.finRange 3).all (fun j => !(board i j == ' ')))

/-- An `int` used as an index into a `std::array<_, 3>`: defined for `0..2` only. -/
def index (n : Int) : Option (Fin 3) :=
  if h : 0 ≤ n ∧ n < 3 then some ⟨n.toNat, by omega⟩ else none

/-- The assignment `board[row][col] = player`. -/
def set_cell (board : Board) (row col : Fin 3) (player : Char) : Board :=
  fun i j => if i = row ∧ j = col then player else board i j

/-- What one call of `make_move` does in a given state. -/
inductive Outcome where
  /-- The wait predicate `current_player == player || game_over` is false: the
  caller stays suspended on `turn_cv`, nothing is read or written. -/
  | blocked : Outcome
  /-- The call indexes `board` outside `0..2`. -/
  | undefined : Outcome
  /-- The call returns `accepted`, leaves the object in state `next` and has
  written `output` to `std::cout`. -/
  | returned (accepted : Bool) (next : State) (output : String) : Outcome

/-- The function `make_move(player, row, col)`. -/
def make_move (s : State) (player : Char) (row col : Int) : Outcome :=
  if ¬ (s.current_player = player ∨ s.game_over = true) then Outcome.blocked
  else if s.game_over = true then Outcome.returned false s ""
  else
    match index row, index col with
    | some r, some c =>
      if s.board r c = ' ' then
        let board := set_cell s.board r c player
        let output := display_board board
        let s1 : State :=
          if check_win board player then
            { s with board := board, game_over := true, winner := player }
          else if check_draw board then
            { s with board := board, game_over := true, winner := 'D' }
          else { s with board := board }
        Outcome.returned true
          { s1 with current_player := if player = 'X' then 'O' else 'X' } output
      else Outcome.returned false s ""
    | _, _ => Outcome.undefined

/-- One call `make_move(player, row, col)` with its arguments. -/
structure Call where
  player : Char
  row : Int
  col : Int

/-- An accepted move: the call, the state it was executed in and the state it left. -/
structure Move where
  call : Call
  before : State
  after : State

/-- A sequence of `make_move` calls executed one after the other (each call is
atomic under the mutex) from state `s`.  The result is the final state and the
list of accepted moves in order; a call whose wait predicate is false changes
nothing (its caller stays suspended) and a call with undefined behaviour makes
the whole run undefined (`none`). -/
def run : State → List Call → Option (State × List Move)
  | s, [] => some (s, [])
  | s, c :: cs =>
    match make_move s c.player c.row c.col with
    | Outcome.undefined => none
    | Outcome.blocked => run s cs
    | Outcome.returned false s1 _ => run s1 cs
    | Outcome.returned true s1 _ =>
      match run s1 cs with
      | none => none
      | some (t, log) => some (t, { call := c, before := s, after := s1 } :: log)

/-- A state the object can be in: the result of some sequence of calls on a
freshly constructed game. -/
def Reachable (s : State) : Prop :=
  ∃ calls log, run init calls = some (s, log)

/-- The board has no empty cell. -/
def Full (board : Board) : Prop :=
  ∀ i j, board i j ≠ ' '

/-- Symbol `p` holds a complete row, column or diagonal: all three cells of
some row, of some column, of the main diagonal or of the anti-diagonal equal `p`. -/
def HoldsLine (board : Board) (p : Char) : Prop :=
  (∃ i, ∀ j, board i j = p) ∨ (∃ j, ∀ i, board i j = p) ∨
    (∀ k, board k k = p) ∨ (∀ k, board k (Fin.rev k) = p)

instance (board : Board) : Decidable (Full board) := by
  unfold Full; infer_instance

instance (board : Board) (p : Char) : Decidable (HoldsLine board p) := by
  unfold HoldsLine; infer_instance

/-- The invariant of the state machine used in the proofs: the turn marker is
one of the two symbols, and while the game is in progress the winner field is
blank, some cell is empty and neither symbol holds a line. -/
def Inv (s : State) : Prop :=
  (s.current_player = 'X' ∨ s.current_player = 'O') ∧
  (s.game_over = false →
    s.winner = ' ' ∧ check_draw s.board = false ∧
      ¬ HoldsLine s.board 'X' ∧ ¬ HoldsLine s.board 'O')

/-- One `make_move` call issued by a policy: its cell, its return value and
the state after it. -/
structure Attempt where
  row : Int
  col : Int
  accepted : Bool
  after : State

/-- How a pass of a move-selection policy ends: it returns, it is suspended
inside a `make_move` call, or it runs into undefined behaviour. -/
inductive PassStatus where
  | returned : PassStatus
  | blocked : PassStatus
  | undefined : PassStatus

/-- The result of one pass of a policy: how it ended, the state of the game at
that point, and the `make_move` calls that returned, in order. -/
structure Pass where
  status : PassStatus
  state : State
  log : List Attempt

/-- The pairs `(row, col)` visited by `for (row = 0; row < 3; row++)
for (col = 0; col < 3; col++)`, in order. -/
def row_major : List (Int × Int) :=
  (List.range 3).flatMap (fun row => (List.range 3).map (fun col => ((row : Int), (col : Int))))

/-- The body of the two nested loops of `play_sequential` run over the cells
still to visit: `make_move` is called on each cell in turn and the function
returns at the first call that returns `true`. -/
def scan (symbol : Char) : List (Int × Int) → State → Pass
  | [], s => { status := PassStatus.returned, state := s, log := [] }
  | (row, col) :: rest, s =>
    match make_move s symbol row col with
    | Outcome.blocked => { status := PassStatus.blocked, state := s, log := [] }
    | Outcome.undefined => { status := PassStatus.undefined, state := s, log := [] }
    | Outcome.returned true s1 _ =>
      { status := PassStatus.returned, state := s1,
        log := [{ row := row, col := col, accepted := true, after := s1 }] }
    | Outcome.returned false s1 _ =>
      let p := scan symbol rest s1
      { p with log := { row := row, col := col, accepted := false, after := s1 } :: p.log }

/-- The function `Player::play_sequential()` of the agent with symbol `symbol`
on the game in state `s`. -/
def play_sequential (s : State) (symbol : Char) : Pass :=
  scan symbol row_major s

/-- The state left by lines 51-64 of `make_move` when `player` is written
into the cell `(r, c)` of state `s` (used to state what an accepted call does). -/
def accepted_state (s : State) (r c : Fin 3) (player : Char) : State :=
  { board := set_cell s.board r c player,
    current_player := if player = 'X' then 'O' else 'X',
    game_over :=
      if check_win (set_cell s.board r c player) player then true
      else if check_draw (set_cell s.board r c player) then true else false,
    winner :=
      if check_win (set_cell s.board r c player) player then player
      else if check_draw (set_cell s.board r c player) then 'D' else s.winner }

/-- A logged move is legal: it was made in a state satisfying the invariant,
in progress, by the owner of the turn, on an empty cell inside the board, and
its `after` state is the one `make_move` computes. -/
def Legal (m : Move) : Prop :=
  Inv m.before ∧ m.before.game_over = false ∧ m.before.current_player = m.call.player ∧
    ∃ r c, index m.call.row = some r ∧ index m.call.col = some c ∧
      m.before.board r c = ' ' ∧ m.after = accepted_state m.before r c m.call.player

/-- The log `log` is a chain of legal moves leading from state `s` to state
`t`: each move starts in the state the previous one left. -/
def Linked : State → List Move → State → Prop
  | s, [], t => s = t
  | s, m :: ms, t => m.before = s ∧ Legal m ∧ Linked m.after ms t

/-- The cell of the board a logged move was played on. -/
def Move.cell (m : Move) : Int × Int := (m.call.row, m.call.col)

/-- The number of non-empty cells of a board. -/
def filled (board : Board) : Nat :=
  (Finset.univ.filter (fun q : Fin 3 × Fin 3 => board q.1 q.2 ≠ ' ')).card

/-- The nine cells of the board in row-major order. -/
def fin_cells : List (Fin 3 × Fin 3) :=
  (List.finRange 3).flatMap (fun i => (List.finRange 3).map (fun j => (i, j)))

/-- The `int` arguments `make_move` is called with for a cell of the board. -/
def cell_args (q : Fin 3 × Fin 3) : Int × Int := ((q.1.val : Int), (q.2.val : Int))

/-- How a run of the loop of `play_random` stands after a bounded number of
iterations: the function has returned, it is suspended inside a `make_move`
call, it has run into undefined behaviour, or it is still in the loop. -/
inductive LoopStatus where
  | returned : LoopStatus
  | blocked : LoopStatus
  | undefined : LoopStatus
  | unfinished : LoopStatus

/-- The result of running `play_random` for a bounded number of iterations:
how it stands, the state of the game, and the `make_move` calls that returned. -/
structure Sampling where
  status : LoopStatus
  state : State
  log : List Attempt

/-- The function `Player::play_random()` of the agent with symbol `symbol`,
run for at most `fuel` iterations of its `while (true)` loop.  The value
`rnd n` is what the `n`-th call of `std::rand()` returns and `k` counts the
calls of `std::rand()` made so far; `%` on `int` is `Int.tmod`.  After a
rejected call `is_game_over()` is read from the state the call left. -/
def play_random (rnd : Nat → Int) (symbol : Char) : Nat → Nat → State → Sampling
  | 0, _, s => { status := LoopStatus.unfinished, state := s, log := [] }
  | fuel + 1, k, s =>
    let row := Int.tmod (rnd k) 3
    let col := Int.tmod (rnd (k + 1)) 3
    match make_move s symbol row col with
    | Outcome.blocked => { status := LoopStatus.blocked, state := s, log := [] }
    | Outcome.undefined => { status := LoopStatus.undefined, state := s, log := [] }
    | Outcome.returned true s1 _ =>
      { status := LoopStatus.returned, state := s1,
        log := [{ row := row, col := col, accepted := true, after := s1 }] }
    | Outcome.returned false s1 _ =>
      if s1.game_over = true then
        { status := LoopStatus.returned, state := s1,
          log := [{ row := row, col := col, accepted := false, after := s1 }] }
      else
        let p := play_random rnd symbol fuel (k + 2) s1
        { p with log := { row := row, col := col, accepted := false, after := s1 } :: p.log }

/-- The `n`-th pair of coordinates drawn by `play_random` from the source
`rnd` falls on the cell `q` of the board. -/
def Sampled (rnd : Nat → Int) (n : Nat) (q : Fin 3 × Fin 3) : Prop :=
  index (Int.tmod (rnd (2 * n)) 3) = some q.1 ∧ index (Int.tmod (rnd (2 * n + 1)) 3) = some q.2

/-- The entry `play_random` logs when its `n`-th pair of coordinates is
rejected in state `s`. -/
def rejected_sample (rnd : Nat → Int) (s : State) (n : Nat) : Attempt :=
  { row := Int.tmod (rnd (2 * n)) 3, col := Int.tmod (rnd (2 * n + 1)) 3,
    accepted := false, after := s }

/-- Scenario A: `'X'` plays `(0, 0)`, `(0, 1)`, `(0, 2)` and `'O'` plays the
cells `p` and `q` in between. -/
def scenario_a (p q : Fin 3 × Fin 3) : List Call :=
  [⟨'X', 0, 0⟩, ⟨'O', (p.1.val : Int), (p.2.val : Int)⟩, ⟨'X', 0, 1⟩,
   ⟨'O', (q.1.val : Int), (q.2.val : Int)⟩, ⟨'X', 0, 2⟩]

/-- What is observed of a run: the accepted calls in order, and the fields
`game_over` and `winner` of the final state. -/
def summary (res : Option (State × List Move)) : Option (List (Char × Int × Int) × Bool × Char) :=
  res.map (fun r => (r.2.map (fun m => (m.call.player, m.call.row, m.call.col)),
    r.1.game_over, r.1.winner))

/-- The calls of a game in which the cells `cells` are played in order,
alternately by `p` and the other symbol, beginning with `p`. -/
def alternate_calls : Char → List (Fin 3 × Fin 3) → List Call
  | _, [] => []
  | p, q :: qs =>
    ⟨p, (q.1.val : Int), (q.2.val : Int)⟩ :: alternate_calls (if p = 'X' then 'O' else 'X') qs

/-- The board obtained from `board` by writing into the cells `cells`, in
order, alternately `p` and the other symbol, beginning with `p`. -/
def fill_board : Board → Char → List (Fin 3 × Fin 3) → Board
  | board, _, [] => board
  | board, p, q :: qs =>
    fill_board (set_cell board q.1 q.2 p) (if p = 'X' then 'O' else 'X') qs

/-- What `make_move` does to the board and the console, and the evaluations
it makes, as events in program order. -/
inductive Step where
  /-- Line 51: `board[row][col] = player`. -/
  | write (row col : Fin 3) (player : Char) : Step
  /-- Line 52: `display_board()` writes `text` to `std::cout`. -/
  | render (text : String) : Step
  /-- Line 55: `check_win(player)` is evaluated, with this result. -/
  | win_checked (result : Bool) : Step
  /-- Line 58: `check_draw()` is evaluated, with this result. -/
  | draw_checked (result : Bool) : Step
  deriving DecidableEq

/-- The event is a rendering of the board. -/
def Step.is_render : Step → Bool
  | Step.render _ => true
  | _ => false

/-- The function `make_move(player, row, col)` executed statement by
statement, each statement working on the state the previous one left and
appending its event to the trace: the write of line 51, `display_board()` of
line 52 printing the board as it stands after the write, `check_win` of line
55 and, in its `else` branch, `check_draw` of line 58, whose results set
`game_over` and `winner`; then the flip of line 64.  The result is what the
call returns together with the trace of its events. -/
def make_move_traced (s : State) (player : Char) (row col : Int) : Outcome × List Step :=
  if ¬ (s.current_player = player ∨ s.game_over = true) then (Outcome.blocked, [])
  else if s.game_over = true then (Outcome.returned false s "", [])
  else
    match index row, index col with
    | some r, some c =>
      if s.board r c = ' ' then
        let s1 : State := { s with board := set_cell s.board r c player }
        let t1 : List Step := [Step.write r c player]
        let out := display_board s1.board
        let t2 := t1 ++ [Step.render out]
        let w := check_win s1.board player
        let t3 := t2 ++ [Step.win_checked w]
        if w then
          let s2 : State := { s1 with game_over := true, winner := player }
          (Outcome.returned true
            { s2 with current_player := if player = 'X' then 'O' else 'X' } out, t3)
        else
          let d := check_draw s1.board
          let t4 := t3 ++ [Step.draw_checked d]
          let s2 : State := if d then { s1 with game_over := true, winner := 'D' } else s1
          (Outcome.returned true
            { s2 with current_player := if player = 'X' then 'O' else 'X' } out, t4)
      else (Outcome.returned false s "", [])
    | _, _ => (Outcome.undefined, [])

/-- The events of one call `make_move(player, row, col)` in state `s`, in
program order. -/
def make_move_events (s : State) (player : Char) (row col : Int) : List Step :=
  (make_move_traced s player row col).2

/-- The grid of a board as text: three lines, each made of the three cell
characters of a row joined by `" | "`, with the line `"---------"` between
consecutive lines. -/
def grid_text (board : Board) : String :=
  String.intercalate "---------\n"
    ((List.finRange 3).map (fun i =>
      String.intercalate " | " ((List.finRange 3).map (fun j => String.singleton (board i j)))
        ++ "\n"))

/-- The number of cells of a board that hold the symbol `p`. -/
def count_cells (board : Board) (p : Char) : Nat :=
  (Finset.univ.filter (fun q : Fin 3 × Fin 3 => board q.1 q.2 = p)).card

/-- The relation between the turn marker and the numbers of `'X'` and `'O'`
cells used in the proofs: `'X'` is to move with equal counts, or `'O'` is to
move with one more `'X'`. -/
def Balanced (s : State) : Prop :=
  (s.current_player = 'X' ∧ count_cells s.board 'X' = count_cells s.board 'O') ∨
  (s.current_player = 'O' ∧ count_cells s.board 'X' = count_cells s.board 'O' + 1)

/-! ## A sample game, used to instantiate the theorems -/

/-- Nine calls that fill the board without a line for either symbol. -/
def draw_game : List Call :=
  [⟨'X', 0, 0⟩, ⟨'O', 0, 1⟩, ⟨'X', 0, 2⟩, ⟨'O', 1, 1⟩, ⟨'X', 1, 0⟩,
   ⟨'O', 1, 2⟩, ⟨'X', 2, 1⟩, ⟨'O', 2, 0⟩, ⟨'X', 2, 2⟩]

/-- The state `draw_game` ends in, computed by `run`. -/
def draw_final : State :=
  match run init draw_game with
  | some (s, _) => s
  | none => init

/-- The accepted moves of `draw_game`, computed by `run`. -/
def draw_log : List Move :=
  match run init draw_game with
  | some (_, log) => log
  | none => []

/-- The ninth accepted move of `draw_game`. -/
def draw_last : Move :=
  match draw_log[8]? with
  | some m => m
  | none => { call := ⟨'X', 2, 2⟩, before := init, after := init }

/-- The state after `'X'` has played `(0, 0)` and `'O'` has played `(1, 1)`. -/
def after_two : State :=
  accepted_state (accepted_state init 0 0 'X') 1 1 'O'

/-- A random source whose first pair of coordinates is `(0, 0)` and whose
second pair is `(2, 0)`. -/
def sample_source : Nat → Int :=
  fun n => if n < 2 then 0 else (n : Int)

/-- The cells of `draw_game` in the order they are played. -/
def draw_cells : List (Fin 3 × Fin 3) :=
  [(0, 0), (0, 1), (0, 2), (1, 1), (1, 0), (1, 2), (2, 1), (2, 0), (2, 2)]

/-! ## Basic facts about the embedding -/

theorem index_coe (r : Fin 3) : index (r.val : Int) = some r := by
  unfold index
  have h : (0 : Int) ≤ (r.val : Int) ∧ (r.val : Int) < 3 := by omega
  rw [dif_pos h]
  simp

theorem index_eq_some {n : Int} {r : Fin 3} (h : index n = some r) : n = (r.val : Int) := by
  unfold index at h
  split at h
  · rename_i hn
    simp only [Option.some.injEq] at h
    subst h
    simp
    omega
  · simp at h

theorem set_cell_same (b : Board) (r c : Fin 3) (p : Char) : set_cell b r c p r c = p := by
  simp [set_cell]

theorem set_cell_other (b : Board) (r c i j : Fin 3) (p : Char) (h : ¬ (i = r ∧ j = c)) :
    set_cell b r c p i j = b i j := by
  simp only [set_cell, if_neg h]

theorem finRange_three : List.finRange 3 = [0, 1, 2] := by decide


theorem forall_fin3 (P : Fin 3 → Prop) : (∀ i, P i) ↔ P 0 ∧ P 1 ∧ P 2 := by
  constructor
  · intro h
    exact ⟨h 0, h 1, h 2⟩
  · rintro ⟨h0, h1, h2⟩ i
    fin_cases i
    · exact h0
    · exact h1
    · exact h2

theorem exists_fin3 (P : Fin 3 → Prop) : (∃ i, P i) ↔ P 0 ∨ P 1 ∨ P 2 := by
  constructor
  · rintro ⟨i, hi⟩
    fin_cases i
    · exact Or.inl hi
    · exact Or.inr (Or.inl hi)
    · exact Or.inr (Or.inr hi)
  · rintro (h | h | h)
    · exact ⟨0, h⟩
    · exact ⟨1, h⟩
    · exact ⟨2, h⟩

theorem rev_fin3 : Fin.rev (0 : Fin 3) = 2 ∧ Fin.rev (1 : Fin 3) = 1 ∧ Fin.rev (2 : Fin 3) = 0 := by
  decide

theorem check_win_iff (board : Board) (p : Char) :
    check_win board p = true ↔ HoldsLine board p := by
  unfold check_win HoldsLine
  rw [finRange_three]
  simp only [forall_fin3, exists_fin3, rev_fin3.1,
    rev_fin3.2.1, rev_fin3.2.2, List.any_cons, List.any_nil]
  simp only [Bool.or_false, Bool.or_eq_true, Bool.and_eq_true, beq_iff_eq, Bool.if_true_left,
    Bool.if_false_right, Bool.and_true, Bool.decide_eq_true, Bool.or_eq_true, decide_eq_true_eq,
    and_assoc, or_assoc]
  constructor <;> rintro (h | h | h | h | h | h | h | h) <;> simp only [h, and_self, true_or, or_true]

theorem check_draw_iff (board : Board) : check_draw board = true ↔ Full board := by
  simp only [check_draw, Full, finRange_three, forall_fin3]
  simp

theorem make_move_cases (s : State) (player : Char) (row col : Int) :
    (make_move s player row col = Outcome.blocked ∧
        s.current_player ≠ player ∧ s.game_over = false) ∨
    (make_move s player row col = Outcome.returned false s "" ∧ s.game_over = true) ∨
    (make_move s player row col = Outcome.undefined ∧ s.game_over = false ∧
        s.current_player = player ∧ (index row = none ∨ index col = none)) ∨
    (∃ r c, index row = some r ∧ index col = some c ∧ s.game_over = false ∧
        s.current_player = player ∧ s.board r c ≠ ' ' ∧
        make_move s player row col = Outcome.returned false s "") ∨
    (∃ r c, index row = some r ∧ index col = some c ∧ s.game_over = false ∧
        s.current_player = player ∧ s.board r c = ' ' ∧
        make_move s player row col =
          Outcome.returned true (accepted_state s r c player)
            (display_board (set_cell s.board r c player))) := by
  unfold make_move accepted_state
  by_cases hover : s.game_over = true
  · right; left
    simp [hover]
  · have hprog : s.game_over = false := by simpa using hover
    by_cases hturn : s.current_player = player
    · right; right
      cases hr : index row with
      | none => left; simp [hprog, hturn]
      | some r =>
        cases hc : index col with
        | none => left; simp [hprog, hturn]
        | some c =>
          right
          by_cases hempty : s.board r c = ' '
          · right
            refine ⟨r, c, rfl, rfl, hprog, hturn, hempty, ?_⟩
            by_cases hw : check_win (set_cell s.board r c player) player = true
            · simp [hprog, hturn, hempty, hw]
            · by_cases hd : check_draw (set_cell s.board r c player) = true
              · simp [hprog, hturn, hempty, hw, hd]
              · simp [hprog, hturn, hempty, hw, hd]
          · left
            exact ⟨r, c, rfl, rfl, hprog, hturn, hempty, by simp [hprog, hturn, hempty]⟩
    · left
      simp [hprog, hturn]

theorem holdsLine_of_set_cell {b : Board} {r c : Fin 3} {p q : Char} (hq : q ≠ p)
    (h : HoldsLine (set_cell b r c p) q) : HoldsLine b q := by
  have key : ∀ i j, set_cell b r c p i j = q → b i j = q := by
    intro i j hij
    unfold set_cell at hij
    split at hij
    · exact absurd hij.symm hq
    · exact hij
  rcases h with ⟨i, hi⟩ | ⟨j, hj⟩ | hd | ha
  · exact Or.inl ⟨i, fun j => key _ _ (hi j)⟩
  · exact Or.inr (Or.inl ⟨j, fun i => key _ _ (hj i)⟩)
  · exact Or.inr (Or.inr (Or.inl fun k => key _ _ (hd k)))
  · exact Or.inr (Or.inr (Or.inr fun k => key _ _ (ha k)))

theorem inv_init : Inv init := by
  refine ⟨Or.inl rfl, fun _ => ⟨rfl, by decide, by decide, by decide⟩⟩

theorem inv_accepted_state {s : State} (hinv : Inv s) (hprog : s.game_over = false)
    (r c : Fin 3) : Inv (accepted_state s r c s.current_player) := by
  obtain ⟨hcp, hrest⟩ := hinv
  obtain ⟨hwin, -, hx, ho⟩ := hrest hprog
  refine ⟨?_, ?_⟩
  · unfold accepted_state
    by_cases h : s.current_player = 'X'
    · right; simp [h]
    · left; simp [h]
  · intro hgo
    unfold accepted_state at hgo ⊢
    simp only at hgo ⊢
    by_cases hw : check_win (set_cell s.board r c s.current_player) s.current_player = true
    · simp [hw] at hgo
    · by_cases hd : check_draw (set_cell s.board r c s.current_player) = true
      · simp [hw, hd] at hgo
      · have hnl : ¬ HoldsLine (set_cell s.board r c s.current_player) s.current_player :=
          fun h => hw ((check_win_iff _ _).mpr h)
        refine ⟨by simp [hw, hd, hwin], by simpa using hd, ?_, ?_⟩
        · intro h
          by_cases hp : s.current_player = 'X'
          · exact hnl (hp ▸ h)
          · exact hx (holdsLine_of_set_cell (Ne.symm hp) h)
        · intro h
          by_cases hp : s.current_player = 'O'
          · exact hnl (hp ▸ h)
          · exact ho (holdsLine_of_set_cell (Ne.symm hp) h)

theorem inv_make_move {s s1 : State} {player : Char} {row col : Int} {b : Bool} {out : String}
    (hinv : Inv s) (h : make_move s player row col = Outcome.returned b s1 out) : Inv s1 := by
  rcases make_move_cases s player row col with
    ⟨e, -⟩ | ⟨e, -⟩ | ⟨e, -⟩ | ⟨r, c, -, -, -, -, -, e⟩ | ⟨r, c, -, -, hprog, hturn, -, e⟩
  · rw [e] at h; cases h
  · rw [e] at h; cases h; exact hinv
  · rw [e] at h; cases h
  · rw [e] at h; cases h; exact hinv
  · rw [e] at h; cases h
    subst hturn
    exact inv_accepted_state hinv hprog r c

theorem run_legal : ∀ (calls : List Call) (s t : State) (log : List Move),
    Inv s → run s calls = some (t, log) → Inv t ∧ ∀ m ∈ log, Legal m := by
  intro calls
  induction calls with
  | nil =>
    intro s t log hinv h
    simp only [run, Option.some.injEq, Prod.mk.injEq] at h
    obtain ⟨rfl, rfl⟩ := h
    exact ⟨hinv, by simp⟩
  | cons c cs ih =>
    intro s t log hinv h
    rcases make_move_cases s c.player c.row c.col with
      ⟨e, -⟩ | ⟨e, -⟩ | ⟨e, -⟩ | ⟨r, k, -, -, -, -, -, e⟩ | ⟨r, k, hr, hk, hprog, hturn, hempty, e⟩
    · simp only [run, e] at h
      exact ih s t log hinv h
    · simp only [run, e] at h
      exact ih s t log hinv h
    · simp [run, e] at h
    · simp only [run, e] at h
      exact ih s t log hinv h
    · simp only [run, e] at h
      cases hrun : run (accepted_state s r k c.player) cs with
      | none => simp [hrun] at h
      | some res =>
        obtain ⟨t1, log1⟩ := res
        simp only [hrun, Option.some.injEq, Prod.mk.injEq] at h
        obtain ⟨rfl, rfl⟩ := h
        have hinv1 : Inv (accepted_state s r k c.player) := by
          rw [← hturn]; exact inv_accepted_state hinv hprog r k
        obtain ⟨ht, hlog⟩ := ih _ _ _ hinv1 hrun
        refine ⟨ht, ?_⟩
        intro m hm
        rcases List.mem_cons.mp hm with rfl | hm
        · exact ⟨hinv, hprog, hturn, r, k, hr, hk, hempty, rfl⟩
        · exact hlog m hm

theorem reachable_inv {s : State} (h : Reachable s) : Inv s := by
  obtain ⟨calls, log, hrun⟩ := h
  exact (run_legal calls init s log inv_init hrun).1

theorem make_move_in_turn (s : State) (player : Char) (r c : Fin 3)
    (hprog : s.game_over = false) (hturn : s.current_player = player)
    (hempty : s.board r c = ' ') :
    make_move s player (r.val : Int) (c.val : Int) =
      Outcome.returned true
        { board := set_cell s.board r c player,
          current_player := if player = 'X' then 'O' else 'X',
          game_over :=
            if check_win (set_cell s.board r c player) player then true
            else if check_draw (set_cell s.board r c player) then true else false,
          winner :=
            if check_win (set_cell s.board r c player) player then player
            else if check_draw (set_cell s.board r c player) then 'D' else s.winner }
        (display_board (set_cell s.board r c player)) := by
  unfold make_move
  simp only [index_coe, hprog, hturn, hempty]
  by_cases hw : check_win (set_cell s.board r c player) player = true
  · simp [hw]
  · by_cases hd : check_draw (set_cell s.board r c player) = true
    · simp [hw, hd]
    · simp [hw, hd, hprog]

theorem run_game_over : ∀ (calls : List Call) (s : State), s.game_over = true →
    run s calls = some (s, []) := by
  intro calls
  induction calls with
  | nil => intro s _; rfl
  | cons c cs ih =>
    intro s hover
    rcases make_move_cases s c.player c.row c.col with
      ⟨-, -, hp⟩ | ⟨e, -⟩ | ⟨-, hp, -⟩ | ⟨r, k, -, -, hp, -⟩ | ⟨r, k, -, -, hp, -⟩
    · rw [hover] at hp; cases hp
    · simp only [run, e]
      exact ih s hover
    · rw [hover] at hp; cases hp
    · rw [hover] at hp; cases hp
    · rw [hover] at hp; cases hp

theorem run_linked : ∀ (calls : List Call) (s t : State) (log : List Move),
    Inv s → run s calls = some (t, log) → Linked s log t := by
  intro calls
  induction calls with
  | nil =>
    intro s t log _ h
    simp only [run, Option.some.injEq, Prod.mk.injEq] at h
    obtain ⟨rfl, rfl⟩ := h
    rfl
  | cons c cs ih =>
    intro s t log hinv h
    rcases make_move_cases s c.player c.row c.col with
      ⟨e, -⟩ | ⟨e, -⟩ | ⟨e, -⟩ | ⟨r, k, -, -, -, -, -, e⟩ | ⟨r, k, hr, hk, hprog, hturn, hempty, e⟩
    · simp only [run, e] at h
      exact ih s t log hinv h
    · simp only [run, e] at h
      exact ih s t log hinv h
    · simp [run, e] at h
    · simp only [run, e] at h
      exact ih s t log hinv h
    · simp only [run, e] at h
      cases hrun : run (accepted_state s r k c.player) cs with
      | none => simp [hrun] at h
      | some res =>
        obtain ⟨t1, log1⟩ := res
        simp only [hrun, Option.some.injEq, Prod.mk.injEq] at h
        obtain ⟨rfl, rfl⟩ := h
        have hinv1 : Inv (accepted_state s r k c.player) := by
          rw [← hturn]; exact inv_accepted_state hinv hprog r k
        exact ⟨rfl, ⟨hinv, hprog, hturn, r, k, hr, hk, hempty, rfl⟩, ih _ _ _ hinv1 hrun⟩

theorem legal_player {m : Move} (h : Legal m) :
    m.call.player = 'X' ∨ m.call.player = 'O' := by
  obtain ⟨hinv, -, hturn, -⟩ := h
  rw [← hturn]
  exact hinv.1

theorem legal_after_inv {m : Move} (h : Legal m) : Inv m.after := by
  obtain ⟨hinv, hprog, hturn, r, c, -, -, -, hafter⟩ := h
  rw [hafter, ← hturn]
  exact inv_accepted_state hinv hprog r c

theorem legal_turn {m : Move} (h : Legal m) :
    m.after.current_player = if m.call.player = 'X' then 'O' else 'X' := by
  obtain ⟨-, -, -, r, c, -, -, -, hafter⟩ := h
  rw [hafter]
  rfl

theorem linked_inv : ∀ (log : List Move) (s t : State), Inv s → Linked s log t → Inv t := by
  intro log
  induction log with
  | nil =>
    intro s t hinv h
    have e : s = t := h
    exact e ▸ hinv
  | cons m ms ih =>
    intro s t _ h
    obtain ⟨-, hlegal, hrest⟩ := h
    exact ih _ _ (legal_after_inv hlegal) hrest

theorem linked_legal : ∀ (log : List Move) (s t : State), Linked s log t →
    ∀ m ∈ log, Legal m := by
  intro log
  induction log with
  | nil => intro s t _ m hm; cases hm
  | cons m0 ms ih =>
    intro s t h m hm
    obtain ⟨-, hlegal, hrest⟩ := h
    rcases List.mem_cons.mp hm with rfl | hm
    · exact hlegal
    · exact ih _ _ hrest m hm

theorem legal_draw_iff {m : Move} (h : Legal m) :
    (m.after.game_over = true ∧ m.after.winner = 'D') ↔
      (Full m.after.board ∧ ¬ HoldsLine m.after.board 'X' ∧ ¬ HoldsLine m.after.board 'O') := by
  have hpl := legal_player h
  obtain ⟨hinv, hprog, hturn, r, c, -, -, -, hafter⟩ := h
  obtain ⟨hwin, -, hx, ho⟩ := hinv.2 hprog
  rw [hafter]
  unfold accepted_state
  simp only
  have hother : ∀ q : Char, (q = 'X' ∨ q = 'O') →
      ¬ HoldsLine (set_cell m.before.board r c m.call.player) m.call.player →
      ¬ HoldsLine (set_cell m.before.board r c m.call.player) q := by
    intro q hq hn hl
    by_cases e : q = m.call.player
    · exact hn (e ▸ hl)
    · rcases hq with rfl | rfl
      · exact hx (holdsLine_of_set_cell e hl)
      · exact ho (holdsLine_of_set_cell e hl)
  by_cases hw : check_win (set_cell m.before.board r c m.call.player) m.call.player = true
  · have hl := (check_win_iff _ _).mp hw
    simp only [hw, if_true, true_and]
    constructor
    · intro hD
      rcases hpl with e | e <;> rw [e] at hD <;> exact absurd hD (by decide)
    · rintro ⟨-, h1, h2⟩
      rcases hpl with e | e
      · exact absurd (e ▸ hl) h1
      · exact absurd (e ▸ hl) h2
  · have hn : ¬ HoldsLine (set_cell m.before.board r c m.call.player) m.call.player :=
      fun hl => hw ((check_win_iff _ _).mpr hl)
    by_cases hd : check_draw (set_cell m.before.board r c m.call.player) = true
    · have hf := (check_draw_iff _).mp hd
      simp only [hw, hd, if_true, Bool.false_eq_true, if_false, and_self, true_iff]
      exact ⟨hf, hother _ (Or.inl rfl) hn, hother _ (Or.inr rfl) hn⟩
    · have hf : ¬ Full (set_cell m.before.board r c m.call.player) :=
        fun hf => hd ((check_draw_iff _).mpr hf)
      simp only [hw, hd, Bool.false_eq_true, if_false, false_and, false_iff]
      exact fun h3 => hf h3.1

theorem linked_alternate : ∀ (log : List Move) (s t : State), Linked s log t →
    ∀ (k : Nat) (m : Move), log[k]? = some m →
      (s.current_player = 'X' →
        m.call.player = (if k % 2 = 0 then 'X' else 'O') ∧
        m.after.current_player = (if k % 2 = 0 then 'O' else 'X')) ∧
      (s.current_player = 'O' →
        m.call.player = (if k % 2 = 0 then 'O' else 'X') ∧
        m.after.current_player = (if k % 2 = 0 then 'X' else 'O')) := by
  intro log
  induction log with
  | nil => intro s t _ k m hk; simp at hk
  | cons m0 ms ih =>
    intro s t h k m hk
    obtain ⟨hbefore, hlegal, hrest⟩ := h
    have hturn0 := legal_turn hlegal
    have hpl0 : m0.call.player = s.current_player := by
      rw [← hbefore]; exact hlegal.2.2.1.symm
    cases k with
    | zero =>
      simp only [List.getElem?_cons_zero, Option.some.injEq] at hk
      subst hk
      constructor
      · intro hs
        rw [hs] at hpl0
        simp [hpl0, hturn0]
      · intro hs
        rw [hs] at hpl0
        simp [hpl0, hturn0]
    | succ k =>
      simp only [List.getElem?_cons_succ] at hk
      obtain ⟨ihX, ihO⟩ := ih _ _ hrest k m hk
      have hpar : (k + 1) % 2 = 0 ↔ ¬ (k % 2 = 0) := by omega
      constructor
      · intro hs
        rw [hs] at hpl0
        have h1 : m0.after.current_player = 'O' := by simp [hturn0, hpl0]
        obtain ⟨a, b⟩ := ihO h1
        by_cases hk2 : k % 2 = 0
        · simp [hpar, hk2] at a b ⊢; exact ⟨a, b⟩
        · simp [hpar, hk2] at a b ⊢; exact ⟨a, b⟩
      · intro hs
        rw [hs] at hpl0
        have h1 : m0.after.current_player = 'X' := by simp [hturn0, hpl0]
        obtain ⟨a, b⟩ := ihX h1
        by_cases hk2 : k % 2 = 0
        · simp [hpar, hk2] at a b ⊢; exact ⟨a, b⟩
        · simp [hpar, hk2] at a b ⊢; exact ⟨a, b⟩

theorem legal_cell_empty_before {m : Move} (h : Legal m) {r c : Fin 3}
    (hr : index m.call.row = some r) (hc : index m.call.col = some c) :
    m.before.board r c = ' ' := by
  obtain ⟨-, -, -, r1, c1, hr1, hc1, hempty, -⟩ := h
  rw [hr] at hr1
  rw [hc] at hc1
  cases hr1
  cases hc1
  exact hempty

theorem legal_board_after {m : Move} (h : Legal m) :
    ∃ r c, index m.call.row = some r ∧ index m.call.col = some c ∧
      m.before.board r c = ' ' ∧ m.after.board = set_cell m.before.board r c m.call.player := by
  obtain ⟨-, -, -, r, c, hr, hc, hempty, hafter⟩ := h
  exact ⟨r, c, hr, hc, hempty, by rw [hafter]; rfl⟩

theorem legal_player_ne_blank {m : Move} (h : Legal m) : m.call.player ≠ ' ' := by
  rcases legal_player h with e | e <;> rw [e] <;> decide

theorem empty_of_set_cell_empty {b : Board} {r c i j : Fin 3} {p : Char} (hp : p ≠ ' ')
    (h : set_cell b r c p i j = ' ') : ¬ (i = r ∧ j = c) ∧ b i j = ' ' := by
  unfold set_cell at h
  split at h
  · exact absurd h hp
  · rename_i hne
    exact ⟨hne, h⟩

theorem linked_cells_empty : ∀ (log : List Move) (s t : State), Linked s log t →
    ∀ m ∈ log, ∃ r c, index m.call.row = some r ∧ index m.call.col = some c ∧
      s.board r c = ' ' := by
  intro log
  induction log with
  | nil => intro s t _ m hm; cases hm
  | cons m0 ms ih =>
    intro s t h m hm
    obtain ⟨hbefore, hlegal, hrest⟩ := h
    obtain ⟨r0, c0, hr0, hc0, hempty0, hboard⟩ := legal_board_after hlegal
    rcases List.mem_cons.mp hm with rfl | hm
    · exact ⟨r0, c0, hr0, hc0, hbefore ▸ hempty0⟩
    · obtain ⟨r, c, hr, hc, hempty⟩ := ih _ _ hrest m hm
      rw [hboard] at hempty
      have h2 := (empty_of_set_cell_empty (legal_player_ne_blank hlegal) hempty).2
      exact ⟨r, c, hr, hc, hbefore ▸ h2⟩

theorem linked_cells_nodup : ∀ (log : List Move) (s t : State), Linked s log t →
    (log.map Move.cell).Nodup := by
  intro log
  induction log with
  | nil => intro s t _; simp
  | cons m0 ms ih =>
    intro s t h
    obtain ⟨-, hlegal, hrest⟩ := h
    obtain ⟨r0, c0, hr0, hc0, -, hboard⟩ := legal_board_after hlegal
    rw [List.map_cons, List.nodup_cons]
    refine ⟨?_, ih _ _ hrest⟩
    intro hmem
    obtain ⟨m, hm, hcell⟩ := List.mem_map.mp hmem
    obtain ⟨r, c, hr, hc, hempty⟩ := linked_cells_empty ms _ _ hrest m hm
    unfold Move.cell at hcell
    simp only [Prod.mk.injEq] at hcell
    rw [hcell.1, hr0] at hr
    rw [hcell.2, hc0] at hc
    cases hr
    cases hc
    rw [hboard, set_cell_same] at hempty
    exact legal_player_ne_blank hlegal hempty

theorem filled_le (b : Board) : filled b ≤ 9 := by
  unfold filled
  calc (Finset.univ.filter (fun q : Fin 3 × Fin 3 => b q.1 q.2 ≠ ' ')).card
      ≤ (Finset.univ : Finset (Fin 3 × Fin 3)).card := Finset.card_le_card (Finset.filter_subset _ _)
    _ = 9 := by decide

theorem filled_init : filled init.board = 0 := by decide

theorem filled_set_cell {b : Board} {r c : Fin 3} {p : Char} (hempty : b r c = ' ')
    (hp : p ≠ ' ') : filled (set_cell b r c p) = filled b + 1 := by
  unfold filled
  have hnot : (r, c) ∉ Finset.univ.filter (fun q : Fin 3 × Fin 3 => b q.1 q.2 ≠ ' ') := by
    simp [hempty]
  rw [← Finset.card_insert_of_not_mem hnot]
  congr 1
  ext ⟨i, j⟩
  simp only [Finset.mem_filter, Finset.mem_univ, true_and, Finset.mem_insert, Prod.mk.injEq]
  unfold set_cell
  by_cases hij : i = r ∧ j = c
  · simp [hij, hp]
  · simp [hij]

theorem full_of_filled {b : Board} (h : filled b = 9) : Full b := by
  unfold filled at h
  have huniv : Finset.univ.filter (fun q : Fin 3 × Fin 3 => b q.1 q.2 ≠ ' ') = Finset.univ := by
    apply Finset.eq_univ_of_card
    rw [h]
    decide
  intro i j
  have hmem : (i, j) ∈ Finset.univ.filter (fun q : Fin 3 × Fin 3 => b q.1 q.2 ≠ ' ') := by
    rw [huniv]; exact Finset.mem_univ _
  exact (Finset.mem_filter.mp hmem).2

theorem linked_filled : ∀ (log : List Move) (s t : State), Linked s log t →
    filled t.board = filled s.board + log.length := by
  intro log
  induction log with
  | nil =>
    intro s t h
    have e : s = t := h
    simp [e]
  | cons m0 ms ih =>
    intro s t h
    obtain ⟨hbefore, hlegal, hrest⟩ := h
    obtain ⟨r0, c0, -, -, hempty, hboard⟩ := legal_board_after hlegal
    rw [ih _ _ hrest, hboard, filled_set_cell hempty (legal_player_ne_blank hlegal), hbefore,
      List.length_cons]
    omega

theorem exists_first_split {α : Type} (P : α → Prop) [DecidablePred P] :
    ∀ l : List α, (∃ x ∈ l, P x) →
      ∃ pre x rest, l = pre ++ x :: rest ∧ P x ∧ ∀ y ∈ pre, ¬ P y := by
  intro l
  induction l with
  | nil => rintro ⟨x, hx, -⟩; cases hx
  | cons a t ih =>
    rintro ⟨x, hx, hPx⟩
    by_cases ha : P a
    · exact ⟨[], a, t, rfl, ha, by simp⟩
    · rcases List.mem_cons.mp hx with rfl | hxt
      · exact absurd hPx ha
      · obtain ⟨pre, y, rest, hl, hy, hpre⟩ := ih ⟨x, hxt, hPx⟩
        refine ⟨a :: pre, y, rest, by rw [hl]; rfl, hy, ?_⟩
        intro z hz
        rcases List.mem_cons.mp hz with rfl | hz
        · exact ha
        · exact hpre z hz

theorem row_major_eq : row_major = fin_cells.map cell_args := by decide

theorem fin_cells_get : ∀ k : Fin 9,
    fin_cells[k.val]? = some (⟨k.val / 3, by omega⟩, ⟨k.val % 3, by omega⟩) := by decide

theorem fin_cells_length : fin_cells.length = 9 := by decide

theorem fin_cells_mem : ∀ q : Fin 3 × Fin 3, q ∈ fin_cells := by decide

theorem scan_first_empty (symbol : Char) (s : State) (hprog : s.game_over = false)
    (hturn : s.current_player = symbol) (r c : Fin 3) (rest : List (Int × Int))
    (hempty : s.board r c = ' ') :
    ∀ pre : List (Fin 3 × Fin 3), (∀ q ∈ pre, s.board q.1 q.2 ≠ ' ') →
      scan symbol (pre.map cell_args ++ cell_args (r, c) :: rest) s =
        { status := PassStatus.returned, state := accepted_state s r c symbol,
          log := pre.map (fun q =>
              { row := (cell_args q).1, col := (cell_args q).2, accepted := false, after := s }) ++
            [{ row := (r.val : Int), col := (c.val : Int), accepted := true,
               after := accepted_state s r c symbol }] } := by
  intro pre
  induction pre with
  | nil =>
    intro _
    simp only [List.map_nil, List.nil_append, cell_args, scan]
    rw [make_move_in_turn s symbol r c hprog hturn hempty]
    rfl
  | cons q pre ih =>
    intro hpre
    have hq : s.board q.1 q.2 ≠ ' ' := hpre q (List.mem_cons_self _ _)
    have hrest : ∀ q1 ∈ pre, s.board q1.1 q1.2 ≠ ' ' :=
      fun q1 h1 => hpre q1 (List.mem_cons_of_mem _ h1)
    have hcall : make_move s symbol (q.1.val : Int) (q.2.val : Int) =
        Outcome.returned false s "" := by
      unfold make_move
      simp [index_coe, hprog, hturn, hq]
    simp only [List.map_cons, List.cons_append, cell_args, scan, hcall, List.append_eq]
    have ih2 := ih hrest
    simp only [cell_args] at ih2
    rw [ih2]

theorem draw_game_run : run init draw_game = some (draw_final, draw_log) := by rfl

theorem draw_last_get : draw_log[8]? = some draw_last := by rfl

theorem draw_last_mem : draw_last ∈ draw_log := List.getElem?_mem draw_last_get

theorem draw_log_length : draw_log.length = 9 := by rfl

theorem draw_last_facts : draw_last.after.game_over = true ∧ draw_last.after.winner = 'D' ∧
    draw_last.call.player = 'X' ∧ draw_last.after.board 1 1 = 'O' ∧ Full draw_last.after.board := by
  decide

theorem after_two_pass :
    (play_sequential after_two 'X').log.map (fun a => (a.row, a.col, a.accepted)) =
      [(0, 0, false), (0, 1, true)] ∧
    (play_sequential after_two 'X').state.board 0 1 = 'X' := by
  decide

/-! ## The claims -/

/-- C1: in a state where the game is in progress, the turn marker equals
`player` and the cell `(r, c)` (with `0 ≤ r, c ≤ 2`) is empty, `make_move`
returns `true`; afterwards the cell holds `player` and every other cell is
unchanged; the game is over with winner `player` if `player` holds a complete
line on the new board, otherwise over with winner `'D'` if the new board is
full, otherwise still in progress with the winner field unchanged, which is
`' '` in every state a game can reach. -/
theorem make_move_accepted_contract (s : State) (player : Char) (r c : Fin 3)
    (hprog : s.game_over = false) (hturn : s.current_player = player)
    (hempty : s.board r c = ' ') :
    ∃ s1 out, make_move s player (r.val : Int) (c.val : Int) = Outcome.returned true s1 out ∧
      s1.board r c = player ∧
      (∀ i j, ¬ (i = r ∧ j = c) → s1.board i j = s.board i j) ∧
      (HoldsLine s1.board player → s1.game_over = true ∧ s1.winner = player) ∧
      (¬ HoldsLine s1.board player → Full s1.board →
        s1.game_over = true ∧ s1.winner = 'D') ∧
      (¬ HoldsLine s1.board player → ¬ Full s1.board →
        s1.game_over = false ∧ s1.winner = s.winner ∧ (Reachable s → s1.winner = ' ')) := by
  refine ⟨_, _, make_move_in_turn s player r c hprog hturn hempty, ?_, ?_, ?_, ?_, ?_⟩
  · exact set_cell_same _ _ _ _
  · intro i j hij
    exact set_cell_other _ _ _ _ _ _ hij
  · intro hl
    have hw := (check_win_iff _ _).mpr hl
    simp only [hw, if_true, and_self]
  · intro hl hf
    have hw : check_win (set_cell s.board r c player) player = false := by
      rw [← Bool.not_eq_true]; exact fun h => hl ((check_win_iff _ _).mp h)
    have hd := (check_draw_iff _).mpr hf
    simp [hw, hd]
  · intro hl hf
    have hw : check_win (set_cell s.board r c player) player = false := by
      rw [← Bool.not_eq_true]; exact fun h => hl ((check_win_iff _ _).mp h)
    have hd : check_draw (set_cell s.board r c player) = false := by
      rw [← Bool.not_eq_true]; exact fun h => hf ((check_draw_iff _).mp h)
    simp only [hw, hd, Bool.false_eq_true, if_false, true_and]
    intro hreach
    exact ((reachable_inv hreach).2 hprog).1

/-- Witness of C1: the first move `make_move('X', 0, 0)` of a fresh game. -/
theorem make_move_accepted_contract_witness :
    (init.game_over = false ∧ init.current_player = 'X' ∧ init.board 0 0 = ' ') ∧
    ∃ s1 out, make_move init 'X' ((0 : Fin 3).val : Int) ((0 : Fin 3).val : Int) =
        Outcome.returned true s1 out ∧
      s1.board 0 0 = 'X' ∧
      (∀ i j, ¬ (i = 0 ∧ j = 0) → s1.board i j = init.board i j) ∧
      (HoldsLine s1.board 'X' → s1.game_over = true ∧ s1.winner = 'X') ∧
      (¬ HoldsLine s1.board 'X' → Full s1.board → s1.game_over = true ∧ s1.winner = 'D') ∧
      (¬ HoldsLine s1.board 'X' → ¬ Full s1.board →
        s1.game_over = false ∧ s1.winner = init.winner ∧ (Reachable init → s1.winner = ' ')) :=
  ⟨⟨rfl, rfl, rfl⟩, make_move_accepted_contract init 'X' 0 0 rfl rfl rfl⟩

/-- C2: for every board and every symbol, `check_win(symbol)` returns `true`
if and only if all three cells of some row, of some column, or of one of the
two diagonals equal `symbol`. -/
theorem check_win_correct (board : Board) (symbol : Char) :
    check_win board symbol = true ↔
      (∃ i, board i 0 = symbol ∧ board i 1 = symbol ∧ board i 2 = symbol) ∨
      (∃ j, board 0 j = symbol ∧ board 1 j = symbol ∧ board 2 j = symbol) ∨
      (board 0 0 = symbol ∧ board 1 1 = symbol ∧ board 2 2 = symbol) ∨
      (board 0 2 = symbol ∧ board 1 1 = symbol ∧ board 2 0 = symbol) := by
  rw [check_win_iff]
  unfold HoldsLine
  simp only [forall_fin3, rev_fin3.1, rev_fin3.2.1, rev_fin3.2.2]

/-- C4: in a state with `game_over = true`, `make_move` returns `false` for
every player, row and column (in range or not) and leaves the board, the turn
marker, `game_over` and `winner` unchanged; hence no sequence of further calls
changes the state or is accepted: a terminal status never reverts and the
winner never changes. -/
theorem make_move_game_over (s : State) (player : Char) (row col : Int)
    (hover : s.game_over = true) :
    make_move s player row col = Outcome.returned false s "" ∧
      ∀ calls : List Call, run s calls = some (s, []) := by
  refine ⟨?_, fun calls => run_game_over calls s hover⟩
  unfold make_move
  simp [hover]

/-- Witness of C4: a call by `'O'` on an out-of-range cell of a game that `'X'` has won. -/
theorem make_move_game_over_witness :
    ({ init with game_over := true, winner := 'X' } : State).game_over = true ∧
    (make_move { init with game_over := true, winner := 'X' } 'O' 7 (-1) =
        Outcome.returned false { init with game_over := true, winner := 'X' } "" ∧
      ∀ calls : List Call,
        run { init with game_over := true, winner := 'X' } calls =
          some ({ init with game_over := true, winner := 'X' }, [])) :=
  ⟨rfl, make_move_game_over { init with game_over := true, winner := 'X' } 'O' 7 (-1) rfl⟩

/-- C7: in a state where the game is in progress, it is `player`'s turn and
the cell `(r, c)` (with `0 ≤ r, c ≤ 2`) is not empty, `make_move` returns
`false` and leaves the board, the turn marker, `game_over` and `winner`
unchanged. -/
theorem make_move_occupied (s : State) (player : Char) (r c : Fin 3)
    (hprog : s.game_over = false) (hturn : s.current_player = player)
    (hocc : s.board r c ≠ ' ') :
    make_move s player (r.val : Int) (c.val : Int) = Outcome.returned false s "" := by
  unfold make_move
  simp [index_coe, hprog, hturn, hocc]

/-- Witness of C7: after `'X'` has taken the cell `(0, 0)`, `'O'` tries the same cell. -/
theorem make_move_occupied_witness :
    ((accepted_state init 0 0 'X').game_over = false ∧
      (accepted_state init 0 0 'X').current_player = 'O' ∧
      (accepted_state init 0 0 'X').board 0 0 ≠ ' ') ∧
    make_move (accepted_state init 0 0 'X') 'O' ((0 : Fin 3).val : Int) ((0 : Fin 3).val : Int) =
      Outcome.returned false (accepted_state init 0 0 'X') "" :=
  ⟨⟨by decide, by decide, by decide⟩,
    make_move_occupied (accepted_state init 0 0 'X') 'O' 0 0 (by decide) (by decide) (by decide)⟩


/-- C3: in every game played from the initial state, an accepted move
declares a draw (`game_over = true` and `winner = 'D'`) if and only if after
that move the board has no empty cell and no row, column or diagonal is held
entirely by `'X'` or entirely by `'O'`. -/
theorem draw_declared_iff (calls : List Call) (s : State) (log : List Move)
    (hrun : run init calls = some (s, log)) (m : Move) (hm : m ∈ log) :
    (m.after.game_over = true ∧ m.after.winner = 'D') ↔
      (Full m.after.board ∧ ¬ HoldsLine m.after.board 'X' ∧ ¬ HoldsLine m.after.board 'O') :=
  legal_draw_iff (linked_legal log init s (run_linked calls init s log inv_init hrun) m hm)

/-- Witness of C3: the ninth move of the sample game `draw_game`, which ends in a draw. -/
theorem draw_declared_iff_witness :
    (run init draw_game = some (draw_final, draw_log) ∧ draw_last ∈ draw_log) ∧
    ((draw_last.after.game_over = true ∧ draw_last.after.winner = 'D') ↔
      (Full draw_last.after.board ∧ ¬ HoldsLine draw_last.after.board 'X' ∧
        ¬ HoldsLine draw_last.after.board 'O')) :=
  ⟨⟨rfl, draw_last_mem⟩,
    draw_declared_iff draw_game draw_final draw_log rfl draw_last draw_last_mem⟩

/-- C5: in every sequence of `make_move` calls from the initial state, the
accepted moves are made alternately by `'X'` and `'O'` beginning with `'X'`:
the `k`-th accepted move (counting from 0) is by `'X'` when `k` is even and by
`'O'` when `k` is odd, the turn marker after it is the other symbol (also after
the move that ends the game), and two consecutive accepted moves are never by
the same symbol. -/
theorem accepted_moves_alternate (calls : List Call) (s : State) (log : List Move)
    (hrun : run init calls = some (s, log)) :
    (∀ (k : Nat) (m : Move), log[k]? = some m →
      m.call.player = (if k % 2 = 0 then 'X' else 'O') ∧
      m.after.current_player = (if k % 2 = 0 then 'O' else 'X')) ∧
    (∀ (k : Nat) (m1 m2 : Move), log[k]? = some m1 → log[k + 1]? = some m2 →
      m1.call.player ≠ m2.call.player) := by
  have hlinked := run_linked calls init s log inv_init hrun
  have key : ∀ (k : Nat) (m : Move), log[k]? = some m →
      m.call.player = (if k % 2 = 0 then 'X' else 'O') ∧
      m.after.current_player = (if k % 2 = 0 then 'O' else 'X') :=
    fun k m hk => (linked_alternate log init s hlinked k m hk).1 rfl
  refine ⟨key, ?_⟩
  intro k m1 m2 h1 h2
  rw [(key k m1 h1).1, (key (k + 1) m2 h2).1]
  by_cases hk : k % 2 = 0
  · have hk1 : ¬ ((k + 1) % 2 = 0) := by omega
    simp [hk, hk1]
  · have hk1 : (k + 1) % 2 = 0 := by omega
    simp [hk, hk1]

/-- Witness of C5: the nine accepted moves of the sample game `draw_game`. -/
theorem accepted_moves_alternate_witness :
    run init draw_game = some (draw_final, draw_log) ∧
    ((∀ (k : Nat) (m : Move), draw_log[k]? = some m →
      m.call.player = (if k % 2 = 0 then 'X' else 'O') ∧
      m.after.current_player = (if k % 2 = 0 then 'O' else 'X')) ∧
    (∀ (k : Nat) (m1 m2 : Move), draw_log[k]? = some m1 → draw_log[k + 1]? = some m2 →
      m1.call.player ≠ m2.call.player)) :=
  ⟨rfl, accepted_moves_alternate draw_game draw_final draw_log rfl⟩

/-- C6: a `make_move` call on a cell inside the board never returns with a
previously non-empty cell changed (it is suspended only when it is neither the
caller's turn nor game over, and its behaviour is always defined);
consequently, in every sequence of calls from the initial state the cells of
the accepted moves are pairwise distinct: no cell is written more than once. -/
theorem occupied_cells_kept (s : State) (player : Char) (r c : Fin 3) :
    (match make_move s player (r.val : Int) (c.val : Int) with
      | Outcome.returned _ s1 _ => ∀ i j, s.board i j ≠ ' ' → s1.board i j = s.board i j
      | Outcome.blocked => s.current_player ≠ player ∧ s.game_over = false
      | Outcome.undefined => False) ∧
    ∀ (calls : List Call) (t : State) (log : List Move),
      run init calls = some (t, log) → (log.map Move.cell).Nodup := by
  constructor
  · rcases make_move_cases s player (r.val : Int) (c.val : Int) with
      ⟨e, h1, h2⟩ | ⟨e, -⟩ | ⟨e, -, -, h⟩ | ⟨r1, c1, -, -, -, -, -, e⟩ |
      ⟨r1, c1, hr, hc, -, -, hempty, e⟩
    · rw [e]; exact ⟨h1, h2⟩
    · rw [e]; intro i j _; rfl
    · rw [index_coe, index_coe] at h
      rcases h with h | h <;> cases h
    · rw [e]; intro i j _; rfl
    · rw [e]
      intro i j hij
      apply set_cell_other
      rintro ⟨rfl, rfl⟩
      exact hij hempty
  · intro calls t log hrun
    exact linked_cells_nodup log init t (run_linked calls init t log inv_init hrun)

/-- Witness of C6: the cells played in the sample game `draw_game` are pairwise distinct. -/
theorem occupied_cells_kept_witness :
    run init draw_game = some (draw_final, draw_log) ∧ (draw_log.map Move.cell).Nodup :=
  ⟨rfl, (occupied_cells_kept init 'X' 0 0).2 draw_game draw_final draw_log rfl⟩

/-- C8: in every state reached from the initial state through `make_move`
calls, if the game is still in progress then at least one cell is empty; no
game has more than nine accepted moves, and after nine accepted moves the game
is over. -/
theorem in_progress_has_empty_cell (calls : List Call) (s : State) (log : List Move)
    (hrun : run init calls = some (s, log)) :
    (s.game_over = false → ∃ i j, s.board i j = ' ') ∧
      log.length ≤ 9 ∧ (log.length = 9 → s.game_over = true) := by
  have hlinked := run_linked calls init s log inv_init hrun
  have hinv : Inv s := linked_inv log init s inv_init hlinked
  have hfilled := linked_filled log init s hlinked
  rw [filled_init, Nat.zero_add] at hfilled
  have hnotfull : s.game_over = false → ¬ Full s.board := by
    intro hprog hfull
    have hd := (hinv.2 hprog).2.1
    rw [(check_draw_iff _).mpr hfull] at hd
    cases hd
  refine ⟨?_, ?_, ?_⟩
  · intro hprog
    have h := hnotfull hprog
    unfold Full at h
    push_neg at h
    exact h
  · rw [← hfilled]; exact filled_le _
  · intro h9
    cases hgo : s.game_over with
    | true => rfl
    | false => exact absurd (full_of_filled (hfilled.trans h9)) (hnotfull hgo)

/-- Witness of C8: the sample game `draw_game` has nine accepted moves and is over. -/
theorem in_progress_has_empty_cell_witness :
    run init draw_game = some (draw_final, draw_log) ∧
    ((draw_final.game_over = false → ∃ i j, draw_final.board i j = ' ') ∧
      draw_log.length ≤ 9 ∧ (draw_log.length = 9 → draw_final.game_over = true)) :=
  ⟨rfl, in_progress_has_empty_cell draw_game draw_final draw_log rfl⟩

/-- C10: in a state where the game is in progress, it is the agent's turn
and at least one cell is empty, one pass of `play_sequential` returns after
exactly one accepted move, which places the agent's symbol in the first empty
cell `(r, c)` in row-major order and leaves every other cell unchanged; the
calls on the occupied cells scanned before it, in row-major order, are rejected
and leave the state unchanged. -/
theorem play_sequential_first_empty (s : State) (symbol : Char)
    (hprog : s.game_over = false) (hturn : s.current_player = symbol)
    (hex : ∃ i j, s.board i j = ' ') :
    ∃ r c : Fin 3, s.board r c = ' ' ∧
      (∀ i j : Fin 3, 3 * i.val + j.val < 3 * r.val + c.val → s.board i j ≠ ' ') ∧
      (play_sequential s symbol).status = PassStatus.returned ∧
      (∃ out, make_move s symbol (r.val : Int) (c.val : Int) =
        Outcome.returned true (play_sequential s symbol).state out) ∧
      (play_sequential s symbol).state.board r c = symbol ∧
      (∀ i j, ¬ (i = r ∧ j = c) → (play_sequential s symbol).state.board i j = s.board i j) ∧
      (play_sequential s symbol).log =
        (row_major.take (3 * r.val + c.val)).map
            (fun q => { row := q.1, col := q.2, accepted := false, after := s }) ++
          [{ row := (r.val : Int), col := (c.val : Int), accepted := true,
             after := (play_sequential s symbol).state }] ∧
      ((play_sequential s symbol).log.filter (fun a => a.accepted)).length = 1 := by
  obtain ⟨i0, j0, h0⟩ := hex
  obtain ⟨pre, ⟨r, c⟩, rest, hsplit, hrc, hpre⟩ :=
    exists_first_split (fun q : Fin 3 × Fin 3 => s.board q.1 q.2 = ' ') fin_cells
      ⟨(i0, j0), fin_cells_mem _, h0⟩
  simp only at hrc
  have hlen : pre.length + 1 + rest.length = 9 := by
    have h := congrArg List.length hsplit
    rw [fin_cells_length, List.length_append, List.length_cons] at h
    omega
  have hklt : pre.length < 9 := by omega
  have hget : fin_cells[pre.length]? = some (r, c) := by
    rw [hsplit, List.getElem?_append_right (Nat.le_refl _)]
    simp
  have hk := fin_cells_get ⟨pre.length, hklt⟩
  simp only at hk
  rw [hget] at hk
  simp only [Option.some.injEq, Prod.mk.injEq] at hk
  have hr : r.val = pre.length / 3 := congrArg Fin.val hk.1
  have hc : c.val = pre.length % 3 := congrArg Fin.val hk.2
  have hidx : 3 * r.val + c.val = pre.length := by omega
  have hscan := scan_first_empty symbol s hprog hturn r c (rest.map cell_args) hrc pre hpre
  have hplay : play_sequential s symbol =
      { status := PassStatus.returned, state := accepted_state s r c symbol,
        log := pre.map (fun q =>
            { row := (cell_args q).1, col := (cell_args q).2, accepted := false, after := s }) ++
          [{ row := (r.val : Int), col := (c.val : Int), accepted := true,
             after := accepted_state s r c symbol }] } := by
    unfold play_sequential
    rw [row_major_eq, hsplit, List.map_append, List.map_cons]
    exact hscan
  have htake : row_major.take (3 * r.val + c.val) = pre.map cell_args := by
    rw [row_major_eq, hsplit, List.map_append, hidx]
    have hl : (pre.map cell_args).length = pre.length := List.length_map _ _
    rw [← hl, List.take_left]
  refine ⟨r, c, hrc, ?_, ?_, ?_, ?_, ?_, ?_, ?_⟩
  · intro i j hij
    have hlt : 3 * i.val + j.val < 9 := by omega
    have hg := fin_cells_get ⟨3 * i.val + j.val, hlt⟩
    simp only at hg
    have hi : (⟨(3 * i.val + j.val) / 3, by omega⟩ : Fin 3) = i := Fin.ext (by simp; omega)
    have hj : (⟨(3 * i.val + j.val) % 3, by omega⟩ : Fin 3) = j := Fin.ext (by simp; omega)
    rw [hi, hj, hsplit, List.getElem?_append_left (by omega)] at hg
    exact hpre (i, j) (List.getElem?_mem hg)
  · rw [hplay]
  · rw [hplay]
    exact ⟨_, make_move_in_turn s symbol r c hprog hturn hrc⟩
  · rw [hplay]
    exact set_cell_same _ _ _ _
  · rw [hplay]
    intro i j hij
    exact set_cell_other _ _ _ _ _ _ hij
  · rw [hplay, htake, List.map_map]
    rfl
  · rw [hplay]
    simp [List.filter_append, List.filter_map]

/-- Witness of C10: a pass of `'X'` after `'X'` has played `(0, 0)` and `'O'` `(1, 1)`. -/
theorem play_sequential_first_empty_witness :
    (after_two.game_over = false ∧ after_two.current_player = 'X' ∧
      ∃ i j, after_two.board i j = ' ') ∧
    ∃ r c : Fin 3, after_two.board r c = ' ' ∧
      (∀ i j : Fin 3, 3 * i.val + j.val < 3 * r.val + c.val → after_two.board i j ≠ ' ') ∧
      (play_sequential after_two 'X').status = PassStatus.returned ∧
      (∃ out, make_move after_two 'X' (r.val : Int) (c.val : Int) =
        Outcome.returned true (play_sequential after_two 'X').state out) ∧
      (play_sequential after_two 'X').state.board r c = 'X' ∧
      (∀ i j, ¬ (i = r ∧ j = c) →
        (play_sequential after_two 'X').state.board i j = after_two.board i j) ∧
      (play_sequential after_two 'X').log =
        (row_major.take (3 * r.val + c.val)).map
            (fun q => { row := q.1, col := q.2, accepted := false, after := after_two }) ++
          [{ row := (r.val : Int), col := (c.val : Int), accepted := true,
             after := (play_sequential after_two 'X').state }] ∧
      ((play_sequential after_two 'X').log.filter (fun a => a.accepted)).length = 1 :=
  ⟨⟨by decide, by decide, ⟨0, 1, by decide⟩⟩,
    play_sequential_first_empty after_two 'X' (by decide) (by decide) ⟨0, 1, by decide⟩⟩

/-! ## The random policy -/

theorem play_random_rejected (rnd : Nat → Int) (symbol : Char) (s : State)
    (hprog : s.game_over = false) (hturn : s.current_player = symbol) (fuel k : Nat)
    (r c : Fin 3) (hr : index (Int.tmod (rnd k) 3) = some r)
    (hc : index (Int.tmod (rnd (k + 1)) 3) = some c) (hocc : s.board r c ≠ ' ') :
    play_random rnd symbol (fuel + 1) k s =
      { play_random rnd symbol fuel (k + 2) s with
        log := { row := Int.tmod (rnd k) 3, col := Int.tmod (rnd (k + 1)) 3,
                 accepted := false, after := s } ::
          (play_random rnd symbol fuel (k + 2) s).log } := by
  have hcall : make_move s symbol (Int.tmod (rnd k) 3) (Int.tmod (rnd (k + 1)) 3) =
      Outcome.returned false s "" := by
    unfold make_move
    simp [hr, hc, hprog, hturn, hocc]
  rw [play_random]
  simp only [hcall, hprog, Bool.false_eq_true, if_false]

theorem play_random_accepted (rnd : Nat → Int) (symbol : Char) (s : State)
    (hprog : s.game_over = false) (hturn : s.current_player = symbol) (fuel k : Nat)
    (r c : Fin 3) (hr : index (Int.tmod (rnd k) 3) = some r)
    (hc : index (Int.tmod (rnd (k + 1)) 3) = some c) (hempty : s.board r c = ' ') :
    play_random rnd symbol (fuel + 1) k s =
      { status := LoopStatus.returned, state := accepted_state s r c symbol,
        log := [{ row := Int.tmod (rnd k) 3, col := Int.tmod (rnd (k + 1)) 3,
                  accepted := true, after := accepted_state s r c symbol }] } := by
  have hcall : make_move s symbol (Int.tmod (rnd k) 3) (Int.tmod (rnd (k + 1)) 3) =
      Outcome.returned true (accepted_state s r c symbol)
        (display_board (set_cell s.board r c symbol)) := by
    rw [index_eq_some hr, index_eq_some hc]
    exact make_move_in_turn s symbol r c hprog hturn hempty
  rw [play_random]
  simp only [hcall]

theorem play_random_hits (rnd : Nat → Int) (symbol : Char) (s : State)
    (hprog : s.game_over = false) (hturn : s.current_player = symbol) (r c : Fin 3)
    (hempty : s.board r c = ' ') :
    ∀ (n j fuel : Nat), n < fuel → Sampled rnd (j + n) (r, c) →
      (∀ m, m < n → ∃ q, Sampled rnd (j + m) q ∧ s.board q.1 q.2 ≠ ' ') →
      play_random rnd symbol fuel (2 * j) s =
        { status := LoopStatus.returned, state := accepted_state s r c symbol,
          log := (List.range n).map (fun m => rejected_sample rnd s (j + m)) ++
            [{ row := Int.tmod (rnd (2 * (j + n))) 3, col := Int.tmod (rnd (2 * (j + n) + 1)) 3,
               accepted := true, after := accepted_state s r c symbol }] } := by
  intro n
  induction n with
  | zero =>
    intro j fuel hfuel hhit _
    obtain ⟨f, rfl⟩ : ∃ f, fuel = f + 1 := ⟨fuel - 1, by omega⟩
    obtain ⟨hr, hc⟩ := hhit
    simp only [Nat.add_zero] at hr hc
    rw [play_random_accepted rnd symbol s hprog hturn f (2 * j) r c hr hc hempty]
    simp
  | succ n ih =>
    intro j fuel hfuel hhit hmiss
    obtain ⟨f, rfl⟩ : ∃ f, fuel = f + 1 := ⟨fuel - 1, by omega⟩
    obtain ⟨q, ⟨hr, hc⟩, hocc⟩ := hmiss 0 (by omega)
    simp only [Nat.add_zero] at hr hc
    rw [play_random_rejected rnd symbol s hprog hturn f (2 * j) q.1 q.2 hr hc hocc]
    have hj : 2 * j + 2 = 2 * (j + 1) := by omega
    have hidx : j + 1 + n = j + (n + 1) := by omega
    have ih2 := ih (j + 1) f (by omega) (by rw [hidx]; exact hhit)
      (fun m hm => by
        have h := hmiss (m + 1) (by omega)
        have e : j + 1 + m = j + (m + 1) := by omega
        rw [e]; exact h)
    rw [hj, ih2, hidx]
    simp only [List.range_succ_eq_map, List.map_cons, List.map_map, List.cons_append,
      Nat.add_zero]
    congr 3
    apply List.map_congr_left
    intro m _
    simp only [Function.comp]
    have e : j + 1 + m = j + m.succ := by omega
    rw [e]

theorem play_random_never_hits (rnd : Nat → Int) (symbol : Char) (s : State)
    (hprog : s.game_over = false) (hturn : s.current_player = symbol) :
    ∀ (fuel j : Nat), (∀ m, ∃ q, Sampled rnd (j + m) q ∧ s.board q.1 q.2 ≠ ' ') →
      (play_random rnd symbol fuel (2 * j) s).status = LoopStatus.unfinished := by
  intro fuel
  induction fuel with
  | zero => intro j _; rfl
  | succ f ih =>
    intro j hmiss
    obtain ⟨q, ⟨hr, hc⟩, hocc⟩ := hmiss 0
    simp only [Nat.add_zero] at hr hc
    rw [play_random_rejected rnd symbol s hprog hturn f (2 * j) q.1 q.2 hr hc hocc]
    have hj : 2 * j + 2 = 2 * (j + 1) := by omega
    rw [hj]
    exact ih (j + 1) (fun m => by
      have h := hmiss (m + 1)
      have e : j + 1 + m = j + (m + 1) := by omega
      rw [e]; exact h)

/-- C11, as stated, fails: in the state `after_two` (in progress, `'X'` to
move, seven cells free) a random source that always returns `0` makes
`play_random` sample the occupied cell `(0, 0)` for ever; no number of
iterations brings the loop to its `return`. -/
theorem play_random_constant_source_loops :
    after_two.game_over = false ∧ after_two.current_player = 'X' ∧
      (∃ i j, after_two.board i j = ' ') ∧
      ¬ ∃ fuel, (play_random (fun _ => 0) 'X' fuel 0 after_two).status = LoopStatus.returned := by
  refine ⟨by decide, by decide, ⟨0, 1, by decide⟩, ?_⟩
  rintro ⟨fuel, h⟩
  have hloop := play_random_never_hits (fun _ => 0) 'X' after_two (by decide) (by decide) fuel 0
    (fun _ => ⟨(0, 0), ⟨show index (Int.tmod 0 3) = some 0 by decide,
      show index (Int.tmod 0 3) = some 0 by decide⟩, by decide⟩)
  rw [show 2 * 0 = 0 from rfl, h] at hloop
  cases hloop

/-- C11, amended: in a state where the game is in progress and the caller
owns the turn, the loop of `play_random` returns with an accepted move at the
first pair of coordinates the random source draws on a free cell, after
rejecting the pairs drawn before it on occupied cells; when every pair the
source draws falls on an occupied cell the loop never returns. -/
theorem play_random_first_free_sample (rnd : Nat → Int) (symbol : Char) (s : State)
    (hprog : s.game_over = false) (hturn : s.current_player = symbol) :
    (∀ (n : Nat) (r c : Fin 3), Sampled rnd n (r, c) → s.board r c = ' ' →
      (∀ m, m < n → ∃ q, Sampled rnd m q ∧ s.board q.1 q.2 ≠ ' ') →
      ∀ fuel, n < fuel →
        play_random rnd symbol fuel 0 s =
          { status := LoopStatus.returned, state := accepted_state s r c symbol,
            log := (List.range n).map (rejected_sample rnd s) ++
              [{ row := (r.val : Int), col := (c.val : Int), accepted := true,
                 after := accepted_state s r c symbol }] }) ∧
    ((∀ m, ∃ q, Sampled rnd m q ∧ s.board q.1 q.2 ≠ ' ') →
      ∀ fuel, (play_random rnd symbol fuel 0 s).status = LoopStatus.unfinished) := by
  constructor
  · intro n r c hhit hempty hmiss fuel hfuel
    have h := play_random_hits rnd symbol s hprog hturn r c hempty n 0 fuel hfuel
      (by rw [Nat.zero_add]; exact hhit)
      (fun m hm => by rw [Nat.zero_add]; exact hmiss m hm)
    simp only [Nat.zero_add, Nat.mul_zero] at h
    rw [h, ← index_eq_some hhit.1, ← index_eq_some hhit.2]
  · intro hmiss fuel
    have h := play_random_never_hits rnd symbol s hprog hturn fuel 0
      (fun m => by rw [Nat.zero_add]; exact hmiss m)
    simpa using h

/-- Witness of C11 (amended): from `after_two` with the source `sample_source`
the first pair `(0, 0)` is rejected and the second pair `(2, 0)` is accepted. -/
theorem play_random_first_free_sample_witness :
    (after_two.game_over = false ∧ after_two.current_player = 'X') ∧
    play_random sample_source 'X' 2 0 after_two =
      { status := LoopStatus.returned, state := accepted_state after_two 2 0 'X',
        log := (List.range 1).map (rejected_sample sample_source after_two) ++
          [{ row := ((2 : Fin 3).val : Int), col := ((0 : Fin 3).val : Int), accepted := true,
             after := accepted_state after_two 2 0 'X' }] } :=
  ⟨⟨by decide, by decide⟩,
    (play_random_first_free_sample sample_source 'X' after_two (by decide) (by decide)).1
      1 2 0 ⟨by decide, by decide⟩ (by decide)
      (fun m hm => ⟨(0, 0), by
        have e : m = 0 := by omega
        subst e
        exact ⟨⟨by decide, by decide⟩, by decide⟩⟩)
      2 (by decide)⟩

/-! ## Scenarios -/

theorem scenario_a_summary : ∀ p q : Fin 3 × Fin 3, p.1 ≠ 0 → q.1 ≠ 0 → p ≠ q →
    summary (run init (scenario_a p q)) =
      some ([('X', 0, 0), ('O', (p.1.val : Int), (p.2.val : Int)), ('X', 0, 1),
        ('O', (q.1.val : Int), (q.2.val : Int)), ('X', 0, 2)], true, 'X') := by
  rintro ⟨a, b⟩ ⟨c, d⟩
  fin_cases a <;> fin_cases b <;> fin_cases c <;> fin_cases d <;> decide

theorem fill_board_of_not_mem : ∀ (cs : List (Fin 3 × Fin 3)) (b : Board) (p : Char)
    (i j : Fin 3), (i, j) ∉ cs → fill_board b p cs i j = b i j := by
  intro cs
  induction cs with
  | nil => intro b p i j _; rfl
  | cons q qs ih =>
    intro b p i j hnot
    have h1 : (i, j) ≠ q := fun e => hnot (e ▸ List.mem_cons_self _ _)
    have h2 : (i, j) ∉ qs := fun h => hnot (List.mem_cons_of_mem _ h)
    rw [fill_board, ih _ _ i j h2]
    apply set_cell_other
    rintro ⟨rfl, rfl⟩
    exact h1 rfl

theorem holdsLine_fill_board {b : Board} {x : Char} (p : Char) (cs : List (Fin 3 × Fin 3))
    (hx : x ≠ ' ') (hcs : ∀ q ∈ cs, b q.1 q.2 = ' ') (h : HoldsLine b x) :
    HoldsLine (fill_board b p cs) x := by
  have key : ∀ i j, b i j = x → fill_board b p cs i j = x := by
    intro i j hij
    rw [fill_board_of_not_mem cs b p i j, hij]
    intro hmem
    have := hcs (i, j) hmem
    simp only at this
    rw [hij] at this
    exact hx this
  rcases h with ⟨i, hi⟩ | ⟨j, hj⟩ | hd | ha
  · exact Or.inl ⟨i, fun j => key _ _ (hi j)⟩
  · exact Or.inr (Or.inl ⟨j, fun i => key _ _ (hj i)⟩)
  · exact Or.inr (Or.inr (Or.inl fun k => key _ _ (hd k)))
  · exact Or.inr (Or.inr (Or.inr fun k => key _ _ (ha k)))

theorem mem_of_nodup_nine {cells : List (Fin 3 × Fin 3)} (hnodup : cells.Nodup)
    (hlen : cells.length = 9) (q : Fin 3 × Fin 3) : q ∈ cells := by
  have hcard : cells.toFinset.card = Fintype.card (Fin 3 × Fin 3) := by
    rw [List.toFinset_card_of_nodup hnodup, hlen]
    decide
  have huniv := Finset.eq_univ_of_card _ hcard
  have hq : q ∈ cells.toFinset := by rw [huniv]; exact Finset.mem_univ _
  exact List.mem_toFinset.mp hq

theorem run_alternate_calls : ∀ (cs : List (Fin 3 × Fin 3)) (s : State) (p : Char),
    s.game_over = false → s.current_player = p → (p = 'X' ∨ p = 'O') → cs.Nodup →
    (∀ q ∈ cs, s.board q.1 q.2 = ' ') → (∀ i j, s.board i j = ' ' → (i, j) ∈ cs) →
    ¬ HoldsLine (fill_board s.board p cs) 'X' → ¬ HoldsLine (fill_board s.board p cs) 'O' →
    cs ≠ [] →
    ∃ t log, run s (alternate_calls p cs) = some (t, log) ∧
      log.map (fun m => m.call) = alternate_calls p cs ∧
      (∀ k m, k + 1 < cs.length → log[k]? = some m → m.after.game_over = false) ∧
      t.game_over = true ∧ t.winner = 'D' := by
  intro cs
  induction cs with
  | nil => intro s p _ _ _ _ _ _ _ _ hne; exact absurd rfl hne
  | cons q qs ih =>
    intro s p hprog hturn hp hnodup hempty hall hx ho _
    obtain ⟨r, c⟩ := q
    have hpb : p ≠ ' ' := by rcases hp with e | e <;> rw [e] <;> decide
    have hrc : s.board r c = ' ' := hempty (r, c) (List.mem_cons_self _ _)
    have hnotin : (r, c) ∉ qs := (List.nodup_cons.mp hnodup).1
    have hqs : ∀ q1 ∈ qs, set_cell s.board r c p q1.1 q1.2 = ' ' := by
      intro q1 h1
      rw [set_cell_other, hempty q1 (List.mem_cons_of_mem _ h1)]
      rintro ⟨e1, e2⟩
      exact hnotin (by rw [← e1, ← e2]; exact h1)
    have hwin : check_win (set_cell s.board r c p) p = false := by
      rw [← Bool.not_eq_true]
      intro hw
      have hl := holdsLine_fill_board (if p = 'X' then 'O' else 'X') qs hpb hqs
        ((check_win_iff _ _).mp hw)
      rcases hp with e | e
      · exact hx (by rw [fill_board]; exact e ▸ hl)
      · exact ho (by rw [fill_board]; exact e ▸ hl)
    have hcall : make_move s p (r.val : Int) (c.val : Int) =
        Outcome.returned true (accepted_state s r c p)
          (display_board (set_cell s.board r c p)) :=
      make_move_in_turn s p r c hprog hturn hrc
    cases hqs0 : qs with
    | nil =>
      subst hqs0
      have hfull : Full (set_cell s.board r c p) := by
        intro i j hij
        obtain ⟨hne, hs⟩ := empty_of_set_cell_empty hpb hij
        have hm := hall i j hs
        simp only [List.mem_singleton, Prod.mk.injEq] at hm
        exact hne hm
      have hdraw := (check_draw_iff _).mpr hfull
      refine ⟨accepted_state s r c p,
        [{ call := ⟨p, (r.val : Int), (c.val : Int)⟩, before := s,
           after := accepted_state s r c p }], ?_, ?_, ?_, ?_, ?_⟩
      · simp only [alternate_calls, run, hcall]
      · simp [alternate_calls]
      · intro k m hk
        simp at hk
      · simp [accepted_state, hwin, hdraw]
      · simp [accepted_state, hwin, hdraw]
    | cons q2 qs2 =>
      rw [← hqs0]
      have hnotfull : check_draw (set_cell s.board r c p) = false := by
        rw [← Bool.not_eq_true]
        intro hd
        have hq2 : q2 ∈ qs := by rw [hqs0]; exact List.mem_cons_self _ _
        exact (check_draw_iff _).mp hd q2.1 q2.2 (hqs q2 hq2)
      have hstate : accepted_state s r c p =
          { board := set_cell s.board r c p, current_player := if p = 'X' then 'O' else 'X',
            game_over := false, winner := s.winner } := by
        unfold accepted_state
        simp [hwin, hnotfull]
      have hp1 : (if p = 'X' then 'O' else 'X') = 'X' ∨ (if p = 'X' then 'O' else 'X') = 'O' := by
        by_cases e : p = 'X'
        · right; simp [e]
        · left; simp [e]
      obtain ⟨t, log, hrun, hlog, hmid, hover, hwinner⟩ :=
        ih (accepted_state s r c p) (if p = 'X' then 'O' else 'X')
          (by rw [hstate]) (by rw [hstate]) hp1 (List.nodup_cons.mp hnodup).2
          (by rw [hstate]; exact hqs)
          (by
            rw [hstate]
            intro i j hij
            obtain ⟨hne, hs⟩ := empty_of_set_cell_empty hpb hij
            rcases List.mem_cons.mp (hall i j hs) with e | e
            · simp only [Prod.mk.injEq] at e
              exact absurd e hne
            · exact e)
          (by rw [hstate]; exact hx) (by rw [hstate]; exact ho)
          (by rw [hqs0]; exact List.cons_ne_nil _ _)
      refine ⟨t, (⟨⟨p, (r.val : Int), (c.val : Int)⟩, s, accepted_state s r c p⟩ : Move) :: log,
        ?_, ?_, ?_, hover, hwinner⟩
      · simp only [alternate_calls, run, hcall, hrun]
      · simp only [List.map_cons, alternate_calls, hlog]
      · intro k m hk hget
        cases k with
        | zero =>
          simp only [List.getElem?_cons_zero, Option.some.injEq] at hget
          subst hget
          simp only
          rw [hstate]
        | succ k =>
          simp only [List.getElem?_cons_succ] at hget
          exact hmid k m (by simp only [List.length_cons] at hk ⊢; omega) hget

/-- C12 (scenario A): for every pair of distinct cells `p`, `q` outside row
0, the moves `X(0,0)`, `O(p)`, `X(0,1)`, `O(q)`, `X(0,2)` played in that order
from the initial state are all accepted, and the game ends with
`game_over = true` and `winner = 'X'`. -/
theorem scenario_a_x_wins (p q : Fin 3 × Fin 3) (hp : p.1 ≠ 0) (hq : q.1 ≠ 0) (hpq : p ≠ q) :
    ∃ t log, run init (scenario_a p q) = some (t, log) ∧
      log.map (fun m => m.call) = scenario_a p q ∧
      t.game_over = true ∧ t.winner = 'X' := by
  have h := scenario_a_summary p q hp hq hpq
  cases hrun : run init (scenario_a p q) with
  | none => rw [hrun] at h; cases h
  | some res =>
    obtain ⟨t, log⟩ := res
    rw [hrun] at h
    simp only [summary, Option.map_some', Option.some.injEq, Prod.mk.injEq] at h
    obtain ⟨hlog, hover, hwinner⟩ := h
    refine ⟨t, log, rfl, ?_, hover, hwinner⟩
    have hmap : log.map (fun m => m.call) =
        (log.map (fun m => (m.call.player, m.call.row, m.call.col))).map
          (fun x => (⟨x.1, x.2.1, x.2.2⟩ : Call)) := by
      rw [List.map_map]
      rfl
    rw [hmap, hlog]
    rfl

/-- Witness of C12: `'O'` answers with the cells `(1, 1)` and `(2, 0)`. -/
theorem scenario_a_x_wins_witness :
    (((1, 1) : Fin 3 × Fin 3).1 ≠ 0 ∧ ((2, 0) : Fin 3 × Fin 3).1 ≠ 0 ∧
      ((1, 1) : Fin 3 × Fin 3) ≠ (2, 0)) ∧
    ∃ t log, run init (scenario_a (1, 1) (2, 0)) = some (t, log) ∧
      log.map (fun m => m.call) = scenario_a (1, 1) (2, 0) ∧
      t.game_over = true ∧ t.winner = 'X' :=
  ⟨⟨by decide, by decide, by decide⟩,
    scenario_a_x_wins (1, 1) (2, 0) (by decide) (by decide) (by decide)⟩

/-- C13 (scenario B): for every ordering `cells` of the nine cells, played
from the initial state alternately by `'X'` and `'O'` beginning with `'X'`,
such that the resulting full board has no complete row, column or diagonal for
either symbol, all nine moves are accepted, the game is still in progress
after each of the first eight, and it ends with `game_over = true` and
`winner = 'D'`. -/
theorem scenario_b_draw (cells : List (Fin 3 × Fin 3)) (hnodup : cells.Nodup)
    (hlen : cells.length = 9)
    (hx : ¬ HoldsLine (fill_board init.board 'X' cells) 'X')
    (ho : ¬ HoldsLine (fill_board init.board 'X' cells) 'O') :
    ∃ t log, run init (alternate_calls 'X' cells) = some (t, log) ∧
      log.map (fun m => m.call) = alternate_calls 'X' cells ∧ log.length = 9 ∧
      (∀ k m, k < 8 → log[k]? = some m → m.after.game_over = false) ∧
      t.game_over = true ∧ t.winner = 'D' := by
  have hne : cells ≠ [] := by
    intro e
    rw [e] at hlen
    cases hlen
  obtain ⟨t, log, hrun, hlog, hmid, hover, hwinner⟩ :=
    run_alternate_calls cells init 'X' rfl rfl (Or.inl rfl) hnodup (fun _ _ => rfl)
      (fun i j _ => mem_of_nodup_nine hnodup hlen (i, j)) hx ho hne
  have hcalls : ∀ (cs : List (Fin 3 × Fin 3)) (p : Char),
      (alternate_calls p cs).length = cs.length := by
    intro cs
    induction cs with
    | nil => intro p; rfl
    | cons q qs ih => intro p; simp only [alternate_calls, List.length_cons, ih]
  refine ⟨t, log, hrun, hlog, ?_, ?_, hover, hwinner⟩
  · have h := congrArg List.length hlog
    rw [List.length_map, hcalls, hlen] at h
    exact h
  · intro k m hk hget
    exact hmid k m (by omega) hget

/-- Witness of C13: the ordering `draw_cells`, whose full board has no line. -/
theorem scenario_b_draw_witness :
    (draw_cells.Nodup ∧ draw_cells.length = 9 ∧
      ¬ HoldsLine (fill_board init.board 'X' draw_cells) 'X' ∧
      ¬ HoldsLine (fill_board init.board 'X' draw_cells) 'O') ∧
    ∃ t log, run init (alternate_calls 'X' draw_cells) = some (t, log) ∧
      log.map (fun m => m.call) = alternate_calls 'X' draw_cells ∧ log.length = 9 ∧
      (∀ k m, k < 8 → log[k]? = some m → m.after.game_over = false) ∧
      t.game_over = true ∧ t.winner = 'D' :=
  ⟨⟨by decide, by decide, by decide, by decide⟩,
    scenario_b_draw draw_cells (by decide) (by decide) (by decide) (by decide)⟩

/-! ## Range of the calls issued by the policies -/

theorem index_of_range {n : Int} (h0 : 0 ≤ n) (h2 : n ≤ 2) : ∃ r, index n = some r := by
  unfold index
  have h : 0 ≤ n ∧ n < 3 := ⟨h0, by omega⟩
  rw [dif_pos h]
  exact ⟨_, rfl⟩

theorem make_move_defined (s : State) (player : Char) (row col : Int)
    (hr : 0 ≤ row ∧ row ≤ 2) (hc : 0 ≤ col ∧ col ≤ 2) :
    make_move s player row col ≠ Outcome.undefined := by
  obtain ⟨r, hrow⟩ := index_of_range hr.1 hr.2
  obtain ⟨c, hcol⟩ := index_of_range hc.1 hc.2
  rcases make_move_cases s player row col with
    ⟨e, -⟩ | ⟨e, -⟩ | ⟨-, -, -, h⟩ | ⟨r1, c1, -, -, -, -, -, e⟩ | ⟨r1, c1, -, -, -, -, -, e⟩
  · rw [e]; exact fun h => Outcome.noConfusion h
  · rw [e]; exact fun h => Outcome.noConfusion h
  · rw [hrow, hcol] at h
    rcases h with h | h <;> cases h
  · rw [e]; exact fun h => Outcome.noConfusion h
  · rw [e]; exact fun h => Outcome.noConfusion h

theorem row_major_range : ∀ q ∈ row_major, 0 ≤ q.1 ∧ q.1 ≤ 2 ∧ 0 ≤ q.2 ∧ q.2 ≤ 2 := by
  decide

theorem scan_in_range (symbol : Char) : ∀ (cells : List (Int × Int)) (s : State),
    (∀ q ∈ cells, 0 ≤ q.1 ∧ q.1 ≤ 2 ∧ 0 ≤ q.2 ∧ q.2 ≤ 2) →
    (scan symbol cells s).status ≠ PassStatus.undefined ∧
      ∀ a ∈ (scan symbol cells s).log, (a.row, a.col) ∈ cells := by
  intro cells
  induction cells with
  | nil =>
    intro s _
    exact ⟨fun h => PassStatus.noConfusion h, fun a ha => by cases ha⟩
  | cons q qs ih =>
    intro s hrange
    obtain ⟨row, col⟩ := q
    have hq := hrange (row, col) (List.mem_cons_self _ _)
    have hdef := make_move_defined s symbol row col ⟨hq.1, hq.2.1⟩ hq.2.2
    have hrest := ih s (fun q1 h1 => hrange q1 (List.mem_cons_of_mem _ h1))
    rcases make_move_cases s symbol row col with
      ⟨e, -⟩ | ⟨e, -⟩ | ⟨e, -⟩ | ⟨r1, c1, -, -, -, -, -, e⟩ | ⟨r1, c1, -, -, -, -, -, e⟩
    · simp only [scan, e]
      exact ⟨fun h => PassStatus.noConfusion h, fun a ha => by cases ha⟩
    · simp only [scan, e]
      refine ⟨hrest.1, ?_⟩
      intro a ha
      rcases List.mem_cons.mp ha with rfl | ha
      · exact List.mem_cons_self _ _
      · exact List.mem_cons_of_mem _ (hrest.2 a ha)
    · exact absurd e hdef
    · simp only [scan, e]
      refine ⟨hrest.1, ?_⟩
      intro a ha
      rcases List.mem_cons.mp ha with rfl | ha
      · exact List.mem_cons_self _ _
      · exact List.mem_cons_of_mem _ (hrest.2 a ha)
    · simp only [scan, e]
      refine ⟨fun h => PassStatus.noConfusion h, ?_⟩
      intro a ha
      rcases List.mem_singleton.mp ha with rfl
      exact List.mem_cons_self _ _

theorem tmod_three_range {x : Int} (h : 0 ≤ x) : 0 ≤ Int.tmod x 3 ∧ Int.tmod x 3 ≤ 2 := by
  have h1 := Int.tmod_nonneg 3 h
  have h2 := Int.tmod_lt_of_pos x (by decide : (0 : Int) < 3)
  exact ⟨h1, by omega⟩

theorem play_random_in_range (rnd : Nat → Int) (hrnd : ∀ n, 0 ≤ rnd n) (symbol : Char) :
    ∀ (fuel k : Nat) (s : State),
      (play_random rnd symbol fuel k s).status ≠ LoopStatus.undefined ∧
      ∀ a ∈ (play_random rnd symbol fuel k s).log,
        0 ≤ a.row ∧ a.row ≤ 2 ∧ 0 ≤ a.col ∧ a.col ≤ 2 := by
  intro fuel
  induction fuel with
  | zero =>
    intro k s
    exact ⟨fun h => LoopStatus.noConfusion h, fun a ha => by cases ha⟩
  | succ f ih =>
    intro k s
    have hr := tmod_three_range (hrnd k)
    have hc := tmod_three_range (hrnd (k + 1))
    have hdef := make_move_defined s symbol _ _ hr hc
    have hrest := ih (k + 2) s
    rcases make_move_cases s symbol (Int.tmod (rnd k) 3) (Int.tmod (rnd (k + 1)) 3) with
      ⟨e, -⟩ | ⟨e, hover⟩ | ⟨e, -⟩ | ⟨r1, c1, -, -, hprog, -, -, e⟩ | ⟨r1, c1, -, -, -, -, -, e⟩
    · simp only [play_random, e]
      exact ⟨fun h => LoopStatus.noConfusion h, fun a ha => by cases ha⟩
    · simp only [play_random, e, hover, if_true]
      refine ⟨fun h => LoopStatus.noConfusion h, ?_⟩
      intro a ha
      rcases List.mem_singleton.mp ha with rfl
      exact ⟨hr.1, hr.2, hc.1, hc.2⟩
    · exact absurd e hdef
    · simp only [play_random, e, hprog, Bool.false_eq_true, if_false]
      refine ⟨hrest.1, ?_⟩
      intro a ha
      rcases List.mem_cons.mp ha with rfl | ha
      · exact ⟨hr.1, hr.2, hc.1, hc.2⟩
      · exact hrest.2 a ha
    · simp only [play_random, e]
      refine ⟨fun h => LoopStatus.noConfusion h, ?_⟩
      intro a ha
      rcases List.mem_singleton.mp ha with rfl
      exact ⟨hr.1, hr.2, hc.1, hc.2⟩

/-- C14: every `make_move` call issued by either policy has `0 ≤ row ≤ 2` and
`0 ≤ col ≤ 2`: `play_sequential` only calls on the cells of its two loops,
which are in range, and `play_random` only on coordinates `rand() % 3` of
non-negative values of `rand()`; so no pass of either policy indexes the board
out of range. -/
theorem policy_calls_in_range (s : State) (symbol : Char) (rnd : Nat → Int)
    (hrnd : ∀ n, 0 ≤ rnd n) :
    (∀ q ∈ row_major, 0 ≤ q.1 ∧ q.1 ≤ 2 ∧ 0 ≤ q.2 ∧ q.2 ≤ 2) ∧
    (play_sequential s symbol).status ≠ PassStatus.undefined ∧
    (∀ a ∈ (play_sequential s symbol).log, (a.row, a.col) ∈ row_major) ∧
    (∀ n, 0 ≤ Int.tmod (rnd n) 3 ∧ Int.tmod (rnd n) 3 ≤ 2) ∧
    (∀ fuel k : Nat,
      (play_random rnd symbol fuel k s).status ≠ LoopStatus.undefined ∧
      ∀ a ∈ (play_random rnd symbol fuel k s).log,
        0 ≤ a.row ∧ a.row ≤ 2 ∧ 0 ≤ a.col ∧ a.col ≤ 2) := by
  have hseq := scan_in_range symbol row_major s row_major_range
  exact ⟨row_major_range, hseq.1, hseq.2, fun n => tmod_three_range (hrnd n),
    fun fuel k => play_random_in_range rnd hrnd symbol fuel k s⟩

theorem sample_source_nonneg : ∀ n, 0 ≤ sample_source n := by
  intro n
  unfold sample_source
  split
  · exact Int.le_refl 0
  · exact Int.ofNat_nonneg n

/-- Witness of C14: the passes of `'X'` from `after_two`, with the source `sample_source`. -/
theorem policy_calls_in_range_witness :
    (∀ n, 0 ≤ sample_source n) ∧
    ((∀ q ∈ row_major, 0 ≤ q.1 ∧ q.1 ≤ 2 ∧ 0 ≤ q.2 ∧ q.2 ≤ 2) ∧
    (play_sequential after_two 'X').status ≠ PassStatus.undefined ∧
    (∀ a ∈ (play_sequential after_two 'X').log, (a.row, a.col) ∈ row_major) ∧
    (∀ n, 0 ≤ Int.tmod (sample_source n) 3 ∧ Int.tmod (sample_source n) 3 ≤ 2) ∧
    (∀ fuel k : Nat,
      (play_random sample_source 'X' fuel k after_two).status ≠ LoopStatus.undefined ∧
      ∀ a ∈ (play_random sample_source 'X' fuel k after_two).log,
        0 ≤ a.row ∧ a.row ≤ 2 ∧ 0 ≤ a.col ∧ a.col ≤ 2)) :=
  ⟨sample_source_nonneg, policy_calls_in_range after_two 'X' sample_source sample_source_nonneg⟩

/-! ## Rendering -/

theorem display_board_text (board : Board) :
    display_board board = "\nTabuleiro atual:\n" ++ grid_text board ++ "\n" := by
  unfold display_board display_row grid_text
  simp only [finRange_three, List.foldl, List.map, String.intercalate, String.intercalate.go]
  apply String.ext
  simp [String.singleton]

theorem display_board_ne_empty (board : Board) : display_board board ≠ "" := by
  intro h
  have h2 := congrArg String.length h
  rw [display_board_text] at h2
  simp only [String.length_append] at h2
  have h3 : "\nTabuleiro atual:\n".length = 18 := by decide
  have h4 : "".length = 0 := by decide
  rw [h3, h4] at h2
  omega

theorem make_move_traced_outcome (s : State) (player : Char) (row col : Int) :
    (make_move_traced s player row col).1 = make_move s player row col := by
  rcases make_move_cases s player row col with
    ⟨e, hturn, hprog⟩ | ⟨e, hover⟩ | ⟨e, hprog, hturn, h⟩ |
    ⟨r, c, hr, hc, hprog, hturn, hocc, e⟩ | ⟨r, c, hr, hc, hprog, hturn, hempty, e⟩
  · rw [e]
    simp [make_move_traced, hturn, hprog]
  · rw [e]
    simp [make_move_traced, hover]
  · rw [e]
    unfold make_move_traced
    rcases h with h | h
    · simp [hprog, hturn, h]
    · simp only [hprog, hturn, h]
      cases index row <;> simp
  · rw [e]
    simp [make_move_traced, hr, hc, hprog, hturn, hocc]
  · rw [e]
    unfold make_move_traced accepted_state
    simp only [hr, hc, hprog, hturn, hempty]
    by_cases hw : check_win (set_cell s.board r c player) player = true
    · simp [hw]
    · by_cases hd : check_draw (set_cell s.board r c player) = true
      · simp [hw, hd]
      · simp [hw, hd, hprog]

theorem make_move_traced_accepted (s : State) (player : Char) (row col : Int) (r c : Fin 3)
    (hr : index row = some r) (hc : index col = some c) (hprog : s.game_over = false)
    (hturn : s.current_player = player) (hempty : s.board r c = ' ') :
    (make_move_traced s player row col).2 =
      [Step.write r c player, Step.render (display_board (set_cell s.board r c player)),
        Step.win_checked (check_win (set_cell s.board r c player) player)] ++
      (if check_win (set_cell s.board r c player) player then []
        else [Step.draw_checked (check_draw (set_cell s.board r c player))]) := by
  unfold make_move_traced
  simp only [hr, hc, hprog, hturn, hempty]
  by_cases hw : check_win (set_cell s.board r c player) player = true
  · simp [hw]
  · simp [hw]

/-- C15: an accepted call of `make_move` renders the board exactly once,
after the new symbol has been written and before the win and draw
evaluation: its events are the write, then one rendering, then the win check
and (when that fails) the draw check; the rendering is the non-empty text the
call prints, it shows the board with the new mark, and the status the call
leaves is the one the two checks give.  A call that is not accepted (game
over or occupied cell) or is suspended has no event and prints nothing.  The
statement-by-statement execution returns what `make_move` returns. -/
theorem make_move_renders_once (s : State) (player : Char) (row col : Int) :
    (make_move_traced s player row col).1 = make_move s player row col ∧
    match make_move s player row col with
    | Outcome.returned true s1 out =>
      ∃ r c, index row = some r ∧ index col = some c ∧ s.board r c = ' ' ∧
        s1.board = set_cell s.board r c player ∧ s1.board r c = player ∧
        out = display_board s1.board ∧
        out = "\nTabuleiro atual:\n" ++ grid_text s1.board ++ "\n" ∧ out ≠ "" ∧
        make_move_events s player row col =
          [Step.write r c player, Step.render out,
            Step.win_checked (check_win s1.board player)] ++
          (if check_win s1.board player then []
            else [Step.draw_checked (check_draw s1.board)]) ∧
        (make_move_events s player row col).countP Step.is_render = 1 ∧
        s1.game_over = (check_win s1.board player || check_draw s1.board) ∧
        s1.winner =
          (if check_win s1.board player then player
            else if check_draw s1.board then 'D' else s.winner)
    | Outcome.returned false s1 out =>
      out = "" ∧ s1 = s ∧ make_move_events s player row col = []
    | Outcome.blocked => make_move_events s player row col = []
    | Outcome.undefined => make_move_events s player row col = [] := by
  refine ⟨make_move_traced_outcome s player row col, ?_⟩
  rcases make_move_cases s player row col with
    ⟨e, hturn, hprog⟩ | ⟨e, hover⟩ | ⟨e, hprog, hturn, h⟩ |
    ⟨r, c, hr, hc, hprog, hturn, hocc, e⟩ | ⟨r, c, hr, hc, hprog, hturn, hempty, e⟩
  · rw [e]
    simp [make_move_events, make_move_traced, hturn, hprog]
  · rw [e]
    simp [make_move_events, make_move_traced, hover]
  · rw [e]
    unfold make_move_events make_move_traced
    rcases h with h | h
    · simp [hprog, hturn, h]
    · simp only [hprog, hturn, h]
      cases index row <;> simp
  · rw [e]
    simp [make_move_events, make_move_traced, hr, hc, hprog, hturn, hocc]
  · rw [e]
    have hev := make_move_traced_accepted s player row col r c hr hc hprog hturn hempty
    refine ⟨r, c, hr, hc, hempty, rfl, set_cell_same _ _ _ _, rfl, display_board_text _,
      display_board_ne_empty _, hev, ?_, ?_, ?_⟩
    · unfold make_move_events
      rw [hev]
      by_cases hw : check_win (set_cell s.board r c player) player = true
      · simp [hw, Step.is_render]
      · simp [hw, Step.is_render]
    · show (accepted_state s r c player).game_over = _
      unfold accepted_state
      by_cases hw : check_win (set_cell s.board r c player) player = true
      · simp [hw]
      · by_cases hd : check_draw (set_cell s.board r c player) = true
        · simp [hw, hd]
        · simp [hw, hd]
    · rfl

/-- Witness of C15: the call `make_move('X', 0, 0)` on a fresh game writes
the mark, prints the board with it once, then evaluates win and draw. -/
theorem make_move_renders_once_witness :
    make_move_events init 'X' 0 0 =
      [Step.write 0 0 'X',
        Step.render
          "\nTabuleiro atual:\nX |   |  \n---------\n  |   |  \n---------\n  |   |  \n\n",
        Step.win_checked false, Step.draw_checked false] ∧
    (make_move_traced init 'X' 0 0).1 = make_move init 'X' 0 0 :=
  ⟨by decide, (make_move_renders_once init 'X' 0 0).1⟩

/-- C16: for every board, the text written by `display_board` is the header
line followed by the grid and the final newline of `std::endl`; the grid is
three lines, each the three cell characters of a row joined by `" | "`, with
the line `"---------"` after rows 0 and 1 only. -/
theorem display_board_grid (board : Board) :
    display_board board = "\nTabuleiro atual:\n" ++ grid_text board ++ "\n" ∧
    grid_text board =
      String.mk [board 0 0, ' ', '|', ' ', board 0 1, ' ', '|', ' ', board 0 2, '\n'] ++
      "---------\n" ++
      String.mk [board 1 0, ' ', '|', ' ', board 1 1, ' ', '|', ' ', board 1 2, '\n'] ++
      "---------\n" ++
      String.mk [board 2 0, ' ', '|', ' ', board 2 1, ' ', '|', ' ', board 2 2, '\n'] := by
  constructor
  · unfold display_board display_row grid_text
    simp only [finRange_three, List.foldl, List.map, String.intercalate, String.intercalate.go]
    apply String.ext
    simp [String.singleton]
  · unfold grid_text
    simp only [finRange_three, List.map, String.intercalate, String.intercalate.go]
    apply String.ext
    simp [String.singleton]

/-! ## Invariants of reachable states -/

theorem linked_last : ∀ (log : List Move) (s t : State), Linked s log t →
    (log = [] ∧ t = s) ∨ ∃ m, log.getLast? = some m ∧ Legal m ∧ m.after = t := by
  intro log
  induction log with
  | nil =>
    intro s t h
    have e : s = t := h
    exact Or.inl ⟨rfl, e.symm⟩
  | cons m0 ms ih =>
    intro s t h
    obtain ⟨-, hlegal, hrest⟩ := h
    right
    rcases ih _ _ hrest with ⟨hnil, ht⟩ | ⟨m, hm, hl, ha⟩
    · subst hnil
      exact ⟨m0, rfl, hlegal, ht.symm⟩
    · refine ⟨m, ?_, hl, ha⟩
      cases ms with
      | nil => simp at hm
      | cons m1 ms1 =>
        rw [List.getLast?_cons_cons]
        exact hm

theorem legal_over_cases {m : Move} (h : Legal m) (hover : m.after.game_over = true) :
    (m.after.winner = m.call.player ∧ HoldsLine m.after.board m.call.player ∧
      ∀ q, (q = 'X' ∨ q = 'O') → q ≠ m.call.player → ¬ HoldsLine m.after.board q) ∨
    (m.after.winner = 'D' ∧ Full m.after.board ∧
      ¬ HoldsLine m.after.board 'X' ∧ ¬ HoldsLine m.after.board 'O') := by
  by_cases hD : m.after.winner = 'D'
  · right
    exact ⟨hD, (legal_draw_iff h).mp ⟨hover, hD⟩⟩
  · left
    obtain ⟨hinv, hprog, hturn, r, c, -, -, -, hafter⟩ := h
    obtain ⟨-, -, hx, ho⟩ := hinv.2 hprog
    rw [hafter] at hover hD ⊢
    unfold accepted_state at hover hD ⊢
    simp only at hover hD ⊢
    by_cases hw : check_win (set_cell m.before.board r c m.call.player) m.call.player = true
    · refine ⟨by simp [hw], (check_win_iff _ _).mp hw, ?_⟩
      intro q hq hne hl
      rcases hq with rfl | rfl
      · exact hx (holdsLine_of_set_cell hne hl)
      · exact ho (holdsLine_of_set_cell hne hl)
    · by_cases hd : check_draw (set_cell m.before.board r c m.call.player) = true
      · simp [hw, hd] at hD
      · simp [hw, hd] at hover

theorem count_set_cell_self {b : Board} {r c : Fin 3} {p : Char} (h : b r c ≠ p) :
    count_cells (set_cell b r c p) p = count_cells b p + 1 := by
  unfold count_cells
  have hnot : (r, c) ∉ Finset.univ.filter (fun q : Fin 3 × Fin 3 => b q.1 q.2 = p) := by
    simp [h]
  rw [← Finset.card_insert_of_not_mem hnot]
  congr 1
  ext ⟨i, j⟩
  simp only [Finset.mem_filter, Finset.mem_univ, true_and, Finset.mem_insert, Prod.mk.injEq]
  unfold set_cell
  by_cases hij : i = r ∧ j = c
  · simp [hij]
  · simp [hij]

theorem count_set_cell_other {b : Board} {r c : Fin 3} {p q : Char} (h : b r c ≠ q)
    (hpq : p ≠ q) : count_cells (set_cell b r c p) q = count_cells b q := by
  unfold count_cells
  congr 1
  ext ⟨i, j⟩
  simp only [Finset.mem_filter, Finset.mem_univ, true_and]
  unfold set_cell
  by_cases hij : i = r ∧ j = c
  · obtain ⟨rfl, rfl⟩ := hij
    simp [hpq, h]
  · simp [hij]

theorem balanced_init : Balanced init := by
  left
  exact ⟨rfl, by decide⟩

theorem legal_balanced {m : Move} (h : Legal m) (hb : Balanced m.before) : Balanced m.after := by
  obtain ⟨r, c, -, -, hempty, hboard⟩ := legal_board_after h
  have hturn := legal_turn h
  have hpl : m.before.current_player = m.call.player := h.2.2.1
  have hX : m.before.board r c ≠ 'X' := by rw [hempty]; decide
  have hO : m.before.board r c ≠ 'O' := by rw [hempty]; decide
  unfold Balanced at hb ⊢
  rw [hboard, hturn]
  rcases hb with ⟨hcp, hcount⟩ | ⟨hcp, hcount⟩
  · right
    have e : m.call.player = 'X' := by rw [← hpl, hcp]
    rw [e, count_set_cell_self hX, count_set_cell_other hO (by decide), hcount]
    simp
  · left
    have e : m.call.player = 'O' := by rw [← hpl, hcp]
    rw [e, count_set_cell_self hO, count_set_cell_other hX (by decide), hcount]
    simp

theorem linked_balanced : ∀ (log : List Move) (s t : State), Linked s log t →
    Balanced s → Balanced t := by
  intro log
  induction log with
  | nil =>
    intro s t h hb
    have e : s = t := h
    exact e ▸ hb
  | cons m0 ms ih =>
    intro s t h hb
    obtain ⟨hbefore, hlegal, hrest⟩ := h
    exact ih _ _ hrest (legal_balanced hlegal (hbefore ▸ hb))

/-- C17: in every state reached from the initial state through `make_move`
calls, `game_over` is false if and only if `winner` is `' '`, and while the
game is in progress neither `'X'` nor `'O'` holds a complete row, column or
diagonal. -/
theorem in_progress_iff_blank_winner (calls : List Call) (s : State) (log : List Move)
    (hrun : run init calls = some (s, log)) :
    (s.game_over = false ↔ s.winner = ' ') ∧
    (s.game_over = false → ¬ HoldsLine s.board 'X' ∧ ¬ HoldsLine s.board 'O') := by
  have hlinked := run_linked calls init s log inv_init hrun
  have hinv : Inv s := linked_inv log init s inv_init hlinked
  refine ⟨⟨fun hprog => (hinv.2 hprog).1, ?_⟩, fun hprog => (hinv.2 hprog).2.2⟩
  intro hblank
  cases hgo : s.game_over with
  | false => rfl
  | true =>
    exfalso
    rcases linked_last log init s hlinked with ⟨-, hs⟩ | ⟨m, -, hlegal, hafter⟩
    · rw [hs] at hgo
      cases hgo
    · rw [← hafter] at hgo hblank
      rcases legal_over_cases hlegal hgo with ⟨hw, -⟩ | ⟨hw, -⟩
      · rw [hblank] at hw
        exact legal_player_ne_blank hlegal hw.symm
      · rw [hblank] at hw
        exact absurd hw (by decide)

/-- Witness of C17: the final state of the sample game `draw_game`. -/
theorem in_progress_iff_blank_winner_witness :
    run init draw_game = some (draw_final, draw_log) ∧
    ((draw_final.game_over = false ↔ draw_final.winner = ' ') ∧
    (draw_final.game_over = false →
      ¬ HoldsLine draw_final.board 'X' ∧ ¬ HoldsLine draw_final.board 'O')) :=
  ⟨rfl, in_progress_iff_blank_winner draw_game draw_final draw_log rfl⟩

/-- C18: in every terminal state reached from the initial state through
`make_move` calls, `winner` is one of `'X'`, `'O'`, `'D'`; if it is `'X'` or
`'O'` then that symbol holds a complete row, column or diagonal, the other
symbol holds none, and the winner is the symbol of the last accepted move; if
it is `'D'` then the board is full and neither symbol holds a complete line. -/
theorem terminal_state_winner (calls : List Call) (s : State) (log : List Move)
    (hrun : run init calls = some (s, log)) (hover : s.game_over = true) :
    (s.winner = 'X' ∨ s.winner = 'O' ∨ s.winner = 'D') ∧
    (∀ p q : Char, (p = 'X' ∧ q = 'O') ∨ (p = 'O' ∧ q = 'X') → s.winner = p →
      HoldsLine s.board p ∧ ¬ HoldsLine s.board q ∧
        ∃ m, log.getLast? = some m ∧ m.call.player = p) ∧
    (s.winner = 'D' → Full s.board ∧ ¬ HoldsLine s.board 'X' ∧ ¬ HoldsLine s.board 'O') := by
  have hlinked := run_linked calls init s log inv_init hrun
  rcases linked_last log init s hlinked with ⟨-, hs⟩ | ⟨m, hlast, hlegal, hafter⟩
  · rw [hs] at hover
    cases hover
  · rw [← hafter] at hover ⊢
    have hpl := legal_player hlegal
    rcases legal_over_cases hlegal hover with ⟨hw, hline, hother⟩ | ⟨hw, hfull, hx, ho⟩
    · refine ⟨?_, ?_, ?_⟩
      · rw [hw]
        rcases hpl with e | e
        · exact Or.inl e
        · exact Or.inr (Or.inl e)
      · intro p q hpq hp
        have e : m.call.player = p := by rw [← hw, hp]
        rw [← e]
        refine ⟨hline, hother q ?_ ?_, m, hlast, rfl⟩
        · rcases hpq with ⟨-, rfl⟩ | ⟨-, rfl⟩
          · exact Or.inr rfl
          · exact Or.inl rfl
        · rw [e]
          rcases hpq with ⟨rfl, rfl⟩ | ⟨rfl, rfl⟩ <;> decide
      · intro hD
        rw [hw] at hD
        rcases hpl with e | e <;> rw [e] at hD <;> exact absurd hD (by decide)
    · refine ⟨Or.inr (Or.inr hw), ?_, fun _ => ⟨hfull, hx, ho⟩⟩
      intro p q hpq hp
      rw [hw] at hp
      rcases hpq with ⟨rfl, -⟩ | ⟨rfl, -⟩ <;> exact absurd hp (by decide)

/-- Witness of C18: the final state of the sample game `draw_game`, a draw. -/
theorem terminal_state_winner_witness :
    (run init draw_game = some (draw_final, draw_log) ∧ draw_final.game_over = true) ∧
    ((draw_final.winner = 'X' ∨ draw_final.winner = 'O' ∨ draw_final.winner = 'D') ∧
    (∀ p q : Char, (p = 'X' ∧ q = 'O') ∨ (p = 'O' ∧ q = 'X') → draw_final.winner = p →
      HoldsLine draw_final.board p ∧ ¬ HoldsLine draw_final.board q ∧
        ∃ m, draw_log.getLast? = some m ∧ m.call.player = p) ∧
    (draw_final.winner = 'D' →
      Full draw_final.board ∧ ¬ HoldsLine draw_final.board 'X' ∧
        ¬ HoldsLine draw_final.board 'O')) :=
  ⟨⟨rfl, by decide⟩, terminal_state_winner draw_game draw_final draw_log rfl (by decide)⟩

/-- C19: in every state reached from the initial state through `make_move`
calls, the number of `'X'` cells equals the number of `'O'` cells or exceeds it
by exactly one, and the turn marker is `'X'` exactly when the two counts are
equal and `'O'` exactly when `'X'` has one more. -/
theorem counts_follow_turn (calls : List Call) (s : State) (log : List Move)
    (hrun : run init calls = some (s, log)) :
    (count_cells s.board 'X' = count_cells s.board 'O' ∨
      count_cells s.board 'X' = count_cells s.board 'O' + 1) ∧
    (s.current_player = 'X' ↔ count_cells s.board 'X' = count_cells s.board 'O') ∧
    (s.current_player = 'O' ↔ count_cells s.board 'X' = count_cells s.board 'O' + 1) := by
  have hlinked := run_linked calls init s log inv_init hrun
  rcases linked_balanced log init s hlinked balanced_init with ⟨hcp, hcount⟩ | ⟨hcp, hcount⟩
  · refine ⟨Or.inl hcount, ⟨fun _ => hcount, fun _ => hcp⟩, ⟨?_, ?_⟩⟩
    · intro h
      rw [hcp] at h
      exact absurd h (by decide)
    · intro h
      omega
  · refine ⟨Or.inr hcount, ⟨?_, ?_⟩, ⟨fun _ => hcount, fun _ => hcp⟩⟩
    · intro h
      rw [hcp] at h
      exact absurd h (by decide)
    · intro h
      omega

/-- Witness of C19: the final state of the sample game `draw_game`. -/
theorem counts_follow_turn_witness :
    run init draw_game = some (draw_final, draw_log) ∧
    ((count_cells draw_final.board 'X' = count_cells draw_final.board 'O' ∨
      count_cells draw_final.board 'X' = count_cells draw_final.board 'O' + 1) ∧
    (draw_final.current_player = 'X' ↔
      count_cells draw_final.board 'X' = count_cells draw_final.board 'O') ∧
    (draw_final.current_player = 'O' ↔
      count_cells draw_final.board 'X' = count_cells draw_final.board 'O' + 1)) :=
  ⟨rfl, counts_follow_turn draw_game draw_final draw_log rfl⟩

end TicTacToe
